import Mathlib

/-!
Shallow embedding of the camelup-monte-carlo rules engine and probability
calculator (src/src/game/camel.py, board.py, dice.py, betting.py, game.py and
src/src/probability/calculator.py), together with theorems settling the
specification claims about stack movement, the crazy-camel priority rule, the
betting ledger, the game-state transition function and the exhaustive
dice-sequence enumeration.

Conventions of the embedding:
* Python `int` becomes `Int` (or `Nat` where the source value is a
  non-negative index), lists and tuples become `List`, and dictionaries
  become association lists or plain functions.
* Python functions that can raise `ValueError`/`IndexError` return
  `Except` values; everything else is a total function.
* The probability layer divides counts in `ℚ` where the source divides
  floats; every probability produced by the source is an exact ratio of two
  machine integers, so this is the intended real-number semantics.
-/

namespace CamelUp

/-! ## Camels (src/game/camel.py) -/

/-- The seven camel colors: five racing camels and two crazy camels. -/
inductive CamelColor where
  | blue | green | yellow | red | purple
  | white | black
deriving DecidableEq, Repr, Fintype

/-- Source `CamelColor.is_racing_camel`. -/
def CamelColor.is_racing_camel : CamelColor → Bool
  | .blue | .green | .yellow | .red | .purple => true
  | .white | .black => false

/-- Source `CamelColor.is_crazy_camel`. -/
def CamelColor.is_crazy_camel : CamelColor → Bool
  | .white | .black => true
  | _ => false

/-- The five racing camels (the source's `RACING_CAMELS` frozenset, as a
list; only membership and counting are ever used, so the order is
immaterial). -/
def racing_camels : List CamelColor := [.blue, .green, .yellow, .red, .purple]

/-- A stack of camels on one space, bottom to top (`CamelStack.camels`). -/
abbrev CamelStack := List CamelColor

/-- Source `CamelStack.position_of`: index of the first occurrence of a camel in a
stack (`tuple.index` in the source), `none` when absent. -/
def position_of (c : CamelColor) : CamelStack → Option Nat
  | [] => none
  | x :: rest => if x = c then some 0 else (position_of c rest).map (· + 1)

/-- Source `CamelStack.get_camels_above`: the camel and everything above it. -/
def get_camels_above (stack : CamelStack) (c : CamelColor) : CamelStack :=
  match position_of c stack with
  | none => []
  | some pos => stack.drop pos

/-- Source `CamelStack.remove_camels_from`: split a stack at a camel, returning
`(remaining_stack, removed_stack)`. -/
def remove_camels_from (stack : CamelStack) (c : CamelColor) :
    CamelStack × CamelStack :=
  match position_of c stack with
  | none => (stack, [])
  | some pos => (stack.take pos, stack.drop pos)

/-! ## Camel positions (src/game/camel.py, `CamelPositions`) -/

/-- Source `CamelPositions`: one stack per space, index = space number. -/
structure CamelPositions where
  stacks' : List CamelStack
deriving DecidableEq, Repr

namespace CamelPositions

/-- Source `CamelPositions.get_stack` (empty stack outside the board). -/
def get_stack (ps : CamelPositions) (space : Nat) : CamelStack :=
  ps.stacks'.getD space []

/-- Helper scanning the spaces in ascending order carrying the current index. -/
def find_camel_from (c : CamelColor) : Nat → List CamelStack → Option (Nat × Nat)
  | _, [] => none
  | s, stack :: rest =>
    match position_of c stack with
    | some h => some (s, h)
    | none => find_camel_from c (s + 1) rest

/-- Source `CamelPositions.find_camel`: `(space, height)` of the first stack
containing the camel. -/
def find_camel (ps : CamelPositions) (c : CamelColor) : Option (Nat × Nat) :=
  find_camel_from c 0 ps.stacks'

/-- Source `CamelPositions.get_camel_space`. -/
def get_camel_space (ps : CamelPositions) (c : CamelColor) : Option Nat :=
  (ps.find_camel c).map (·.1)

/-- Source `CamelPositions.place_camel` (raises on an out-of-range space). -/
def place_camel (ps : CamelPositions) (c : CamelColor) (space : Nat) :
    Except String CamelPositions :=
  if space < ps.stacks'.length then
    .ok ⟨ps.stacks'.set space (ps.stacks'.getD space [] ++ [c])⟩
  else
    .error "Invalid space"

/-- The `while len(new_stacks) <= new_space: append empty` loop. -/
def extend_stacks (stacks' : List CamelStack) (n : Nat) : List CamelStack :=
  stacks' ++ List.replicate (n - stacks'.length) []

/-- Source `CamelPositions.move_camel`: move a camel and every camel above it.
The absent-camel branch delegates to `place_camel` exactly as the source
does; the present-camel branch is total. -/
def move_camel (ps : CamelPositions) (c : CamelColor) (spaces : Int)
    (place_underneath : Bool) : Except String CamelPositions :=
  match ps.find_camel c with
  | none => ps.place_camel c (max 1 spaces).toNat
  | some (current_space, _) =>
    -- `new_space = current_space + spaces`, floored at 1
    let new_space : Nat := (max 1 (current_space + spaces : Int)).toNat
    let origin_stack := ps.stacks'.getD current_space []
    let (remaining_at_origin, moving_stack) := remove_camels_from origin_stack c
    let dest_stack := if new_space < ps.stacks'.length
      then ps.stacks'.getD new_space [] else []
    let new_dest_stack := if place_underneath
      then moving_stack ++ dest_stack else dest_stack ++ moving_stack
    let extended := extend_stacks ps.stacks' (new_space + 1)
    .ok ⟨(extended.set current_space remaining_at_origin).set new_space new_dest_stack⟩

/-- The `(-space, -height, camel)` triples collected by
`CamelPositions.get_ranking`, spaces scanned from high to low. -/
def ranking_entries (stacks' : List CamelStack) : List (Int × Int × CamelColor) :=
  ((List.range stacks'.length).reverse).flatMap fun s =>
    (stacks'.getD s []).enum.filterMap fun hc =>
      if hc.2.is_racing_camel then some (-(s : Int), -(hc.1 : Int), hc.2) else none

/-- Lexicographic comparison of the sort keys.  The `(space, height)` parts
of distinct entries are always distinct, so the third component never
decides the order (in the source it would only be compared on a tie). -/
def entry_le (a b : Int × Int × CamelColor) : Bool :=
  a.1 < b.1 || (a.1 == b.1 && a.2.1 ≤ b.2.1)

/-- Insert into a sorted list (helper of the sort used by `get_ranking`). -/
def ordered_insert {α : Type} (le : α → α → Bool) (a : α) : List α → List α
  | [] => [a]
  | b :: l => if le a b then a :: b :: l else b :: ordered_insert le a l

/-- Python's `list.sort`, modelled as a structurally recursive insertion
sort (so that it reduces in the kernel).  The keys sorted by `get_ranking`
are pairwise distinct, so any comparison sort produces the same list. -/
def sort_by {α : Type} (le : α → α → Bool) : List α → List α
  | [] => []
  | a :: l => ordered_insert le a (sort_by le l)

/-- Source `CamelPositions.get_ranking`: racing camels from 1st to last place. -/
def get_ranking (ps : CamelPositions) : List CamelColor :=
  (sort_by entry_le (ranking_entries ps.stacks')).map (·.2.2)

/-- Source `CamelPositions.is_camel_finished`. -/
def is_camel_finished (ps : CamelPositions) (c : CamelColor)
    (finish_line : Nat) : Bool :=
  match ps.get_camel_space c with
  | some s => finish_line ≤ s
  | none => false

/-- Source `CamelPositions.any_camel_finished`. -/
def any_camel_finished (ps : CamelPositions) (finish_line : Nat) : Bool :=
  racing_camels.any fun c => ps.is_camel_finished c finish_line

/-- Source `CamelPositions.has_racing_camels_on_back`. -/
def has_racing_camels_on_back (ps : CamelPositions) (crazy : CamelColor) : Bool :=
  if !crazy.is_crazy_camel then false
  else
    match ps.find_camel crazy with
    | none => false
    | some (space, _) =>
      (get_camels_above (ps.get_stack space) crazy).any fun x =>
        x ≠ crazy && x.is_racing_camel

/-- Source `CamelPositions.get_crazy_camel_to_move`: the crazy-camel priority rule
(rule 1: unique carrier moves; rule 2: directly stacked → top one moves;
rule 3: the die-indicated camel moves). -/
def get_crazy_camel_to_move (ps : CamelPositions) (grey_die_camel : CamelColor) :
    CamelColor :=
  let white_has_racers := ps.has_racing_camels_on_back .white
  let black_has_racers := ps.has_racing_camels_on_back .black
  if white_has_racers && !black_has_racers then .white
  else if black_has_racers && !white_has_racers then .black
  else
    match ps.find_camel .white, ps.find_camel .black with
    | some (ws, _), some (bs, _) =>
      if ws = bs then
        let stack := ps.get_stack ws
        match position_of .white stack, position_of .black stack with
        | some white_height, some black_height =>
          let lower := min white_height black_height
          let upper := max white_height black_height
          let between := (stack.drop (lower + 1)).take (upper - (lower + 1))
          if between.any (·.is_racing_camel) then grey_die_camel
          else if black_height < white_height then .white else .black
        | _, _ => grey_die_camel
      else grey_die_camel
    | _, _ => grey_die_camel

end CamelPositions

/-! ## Board (src/game/board.py) -/

/-- Source `TRACK_LENGTH = 16`. -/
def TRACK_LENGTH : Nat := 16

/-- Source `FINISH_LINE = 17`. -/
def FINISH_LINE : Nat := 17

/-- Source `SpectatorTile`: owner + polarity. -/
structure SpectatorTile where
  owner : Nat
  is_cheering : Bool
deriving DecidableEq, Repr

/-- Source `SpectatorTile.movement_modifier`. -/
def SpectatorTile.movement_modifier (t : SpectatorTile) : Int :=
  if t.is_cheering then 1 else -1

/-- Source `SpectatorTile.place_underneath`. -/
def SpectatorTile.place_underneath (t : SpectatorTile) : Bool :=
  !t.is_cheering

/-- Source `Board`: camel positions + the spectator-tile dictionary (modelled as an
association list from space number to tile; keys are unique by
construction). -/
structure Board where
  camel_positions : CamelPositions
  spectator_tiles : List (Nat × SpectatorTile)
deriving DecidableEq, Repr

namespace Board

/-- Source `Board.get_stack_at`. -/
def get_stack_at (b : Board) (space : Nat) : CamelStack :=
  b.camel_positions.get_stack space

/-- Source `Board.get_spectator_tile`, with an `Int` key as in the source (a
dictionary lookup of a negative target simply misses). -/
def get_spectator_tile (b : Board) (space : Int) : Option SpectatorTile :=
  if 0 ≤ space then (b.spectator_tiles.lookup space.toNat) else none

/-- Source `Board.can_place_spectator_tile`. -/
def can_place_spectator_tile (b : Board) (space : Nat) (player : Nat) : Bool :=
  if space < 2 || TRACK_LENGTH < space then false
  else if !(b.get_stack_at space).isEmpty then false
  else if (b.get_spectator_tile space).any (fun t => t.owner ≠ player) then false
  else if (b.get_spectator_tile ((space : Int) - 1)).any (fun t => t.owner ≠ player) then false
  else if (b.get_spectator_tile ((space : Int) + 1)).any (fun t => t.owner ≠ player) then false
  else true

/-- Source `Board.place_spectator_tile` (raises when placement is illegal).  The
player's own previous tile is removed before the new binding is added. -/
def place_spectator_tile (b : Board) (space : Nat) (player : Nat)
    (is_cheering : Bool) : Except String Board :=
  if b.can_place_spectator_tile space player then
    let new_tiles := (b.spectator_tiles.filter fun st => st.2.owner ≠ player)
      ++ [(space, ⟨player, is_cheering⟩)]
    .ok { b with spectator_tiles := new_tiles }
  else
    .error "Cannot place spectator tile"

/-- Source `Board.move_camel`: apply a base move, adjusting for a spectator tile on
the raw target space; returns the new board and the tile owner to pay (if
any).  A camel that is not on the board is left untouched.  The inner
`CamelPositions.move_camel` call cannot fail because the camel was just
found, so the error arm below is unreachable. -/
def move_camel (b : Board) (c : CamelColor) (spaces : Int) :
    Board × Option Nat :=
  match b.camel_positions.get_camel_space c with
  | none => (b, none)
  | some current_pos =>
    let target0 : Int := current_pos + spaces
    let (target1, tile_owner, place_underneath) :=
      match b.get_spectator_tile target0 with
      | some tile => (target0 + tile.movement_modifier, some tile.owner,
          tile.place_underneath)
      | none => (target0, none, false)
    let target2 : Int := max 1 target1
    match b.camel_positions.move_camel c (target2 - current_pos) place_underneath with
    | .ok ps => ({ b with camel_positions := ps }, tile_owner)
    | .error _ => (b, tile_owner)

/-- Source `Board.is_game_over`. -/
def is_game_over (b : Board) : Bool :=
  b.camel_positions.any_camel_finished FINISH_LINE

/-- Source `Board.get_ranking`. -/
def get_ranking (b : Board) : List CamelColor :=
  b.camel_positions.get_ranking

/-- Source `Board.get_valid_spectator_spaces`. -/
def get_valid_spectator_spaces (b : Board) (player : Nat) : List Nat :=
  (List.range' 2 (TRACK_LENGTH - 1)).filter fun space =>
    b.can_place_spectator_tile space player

/-- Source `Board.clear_all_spectator_tiles`. -/
def clear_all_spectator_tiles (b : Board) : Board :=
  { b with spectator_tiles := [] }

end Board

/-! ## Dice and pyramid (src/game/dice.py) -/

/-- Source `DieColor`: the five racing dice plus the grey die. -/
inductive DieColor where
  | blue | green | yellow | red | purple | grey
deriving DecidableEq, Repr

/-- Source `CamelColor[die_color.name]` for racing dice; the source raises a
`KeyError` on the grey die, which never reaches this conversion. -/
def die_to_camel : DieColor → Option CamelColor
  | .blue => some .blue
  | .green => some .green
  | .yellow => some .yellow
  | .red => some .red
  | .purple => some .purple
  | .grey => none

/-- Source `Pyramid`: racing dice still in the pyramid plus the grey-die flag.
The source stores a frozenset; the embedding keeps a duplicate-free list. -/
structure Pyramid where
  remaining : List DieColor
  grey_rolled : Bool
deriving DecidableEq, Repr

namespace Pyramid

/-- A fresh pyramid for a new leg (the source's default field values). -/
def fresh : Pyramid :=
  { remaining := [.blue, .green, .yellow, .red, .purple], grey_rolled := false }

/-- Source `Pyramid.is_leg_complete`: exactly 1 of the 6 dice remains undrawn. -/
def is_leg_complete (p : Pyramid) : Bool :=
  p.remaining.length + (if p.grey_rolled then 0 else 1) == 1

end Pyramid

/-! ## Probability calculator (src/probability/calculator.py) -/

/-- Source `LegOutcome`: final ranking, spaces landed on, and whether the game
finished during the sequence. -/
structure LegOutcome where
  ranking : List CamelColor
  spaces_landed : List Nat
  game_finished : Bool
deriving DecidableEq, Repr

/-- One die drawn during a replayed sequence: a racing die with its value,
or the grey die showing a crazy camel and a value. -/
inductive Roll where
  | racing (d : DieColor) (v : Nat)
  | grey (cam : CamelColor) (v : Nat)
deriving DecidableEq, Repr

/-- The loop body of `simulate_sequence_with_grey`: apply one die roll and
return the new board together with the space recorded in `spaces_landed`
for this roll (if any).  A landing is recorded only when the moved camel's
space changed. -/
def simulate_roll (b : Board) : Roll → Board × Option Nat
  | .racing d v =>
    match die_to_camel d with
    | none => (b, none)   -- a grey entry here would raise KeyError in the source
    | some camel =>
      let old_space := b.camel_positions.get_camel_space camel
      let b2 := (b.move_camel camel (v : Int)).1
      let new_space := b2.camel_positions.get_camel_space camel
      (b2, if new_space.isSome && (old_space.isNone || new_space ≠ old_space)
        then new_space else none)
  | .grey cam v =>
    let actual := b.camel_positions.get_crazy_camel_to_move cam
    let old_space := b.camel_positions.get_camel_space actual
    let b2 := (b.move_camel actual (-(v : Int))).1
    let new_space := b2.camel_positions.get_camel_space actual
    (b2, if new_space ≠ old_space then new_space else none)

/-- The simulation loop of `simulate_sequence_with_grey`: roll the dice in
order, accumulating landed spaces, and stop as soon as the board reports
game over. -/
def run_rolls (b : Board) : List Roll → Board × List Nat × Bool
  | [] => (b, [], false)
  | r :: rest =>
    let (b2, landed) := simulate_roll b r
    if b2.is_game_over then (b2, landed.toList, true)
    else
      let (b3, more, fin) := run_rolls b2 rest
      (b3, landed.toList ++ more, fin)

/-- The order in which `simulate_sequence_with_grey` consumes dice: the
racing sequence with the grey die inserted at `grey_position` (when a grey
outcome is present). -/
def sequence_events (racing_sequence : List (DieColor × Nat))
    (grey_outcome : Option (CamelColor × Nat)) (grey_position : Nat) :
    List Roll :=
  let rs := racing_sequence.map fun dv => Roll.racing dv.1 dv.2
  match grey_outcome with
  | none => rs
  | some (cam, v) => rs.insertIdx grey_position (Roll.grey cam v)

/-- Source `simulate_sequence_with_grey`. -/
def simulate_sequence_with_grey (b : Board)
    (racing_sequence : List (DieColor × Nat))
    (grey_outcome : Option (CamelColor × Nat)) (grey_position : Nat) :
    LegOutcome :=
  let (b2, landed, fin) :=
    run_rolls b (sequence_events racing_sequence grey_outcome grey_position)
  { ranking := b2.get_ranking, spaces_landed := landed, game_finished := fin }

/-- Source `DICE_VALUES = (1, 2, 3)`. -/
def DICE_VALUES : List Nat := [1, 2, 3]

/-- All ways to insert an element into a list (helper for the permutation
enumerator). -/
def insert_everywhere {α : Type} (x : α) : List α → List (List α)
  | [] => [[x]]
  | y :: rest => (x :: y :: rest) :: (insert_everywhere x rest).map (y :: ·)

/-- Python `itertools.permutations`: every ordering of the input list.  It
is modelled by a structurally recursive enumerator (so that it reduces in
the kernel); like the source's, it yields exactly the `n!` orderings of a
duplicate-free list, and only the collection of orderings — never their
order — is observable in the probability results. -/
def permutations_of {α : Type} : List α → List (List α)
  | [] => [[]]
  | x :: rest => (permutations_of rest).flatMap (insert_everywhere x)

/-- Python `itertools.product(DICE_VALUES, repeat := n)`: all value tuples, first
coordinate varying slowest. -/
def value_tuples : Nat → List (List Nat)
  | 0 => [[]]
  | n + 1 => DICE_VALUES.flatMap fun v => (value_tuples n).map (v :: ·)

/-- Source `enumerate_dice_sequences`: every ordering of the remaining dice crossed
with every value assignment. -/
def enumerate_dice_sequences (remaining_dice : List DieColor) :
    List (List (DieColor × Nat)) :=
  if remaining_dice.isEmpty then [[]]
  else
    (permutations_of remaining_dice).flatMap fun dice_order =>
      (value_tuples dice_order.length).map fun values => dice_order.zip values

/-- Source `enumerate_grey_die_outcomes`: the 6 grey-die faces. -/
def enumerate_grey_die_outcomes : List (CamelColor × Nat) :=
  [(.white, 1), (.white, 2), (.white, 3), (.black, 1), (.black, 2), (.black, 3)]

/-- The outcomes replayed by `calculate_all_probabilities`, in loop order:
every racing sequence, crossed (when the grey die is available) with every
grey outcome and every grey position `0 .. len(remaining)`. -/
def enumerated_outcomes (b : Board) (remaining_racing_dice : List DieColor)
    (grey_die_available : Bool) : List LegOutcome :=
  let racing_sequences := enumerate_dice_sequences remaining_racing_dice
  if grey_die_available then
    racing_sequences.flatMap fun racing_seq =>
      enumerate_grey_die_outcomes.flatMap fun grey_outcome =>
        (List.range (remaining_racing_dice.length + 1)).map fun grey_pos =>
          simulate_sequence_with_grey b racing_seq (some grey_outcome) grey_pos
  else
    racing_sequences.map fun racing_seq =>
      simulate_sequence_with_grey b racing_seq none 0

/-- The accumulators of `calculate_all_probabilities` before the final
division: ranking counts per camel (a 5-slot list, as in the source),
space-landing counts, overall win/lose counts, game-end count and the
total number of outcomes. -/
structure Tally where
  ranking_counts : CamelColor → List Nat
  space_landing_counts : Nat → Nat
  win_counts : CamelColor → Nat
  lose_counts : CamelColor → Nat
  game_ends_count : Nat
  total_outcomes : Nat

/-- The initial accumulators (`[0] * 5` per racing camel, empty defaultdict,
zero counters). -/
def init_tally : Tally :=
  { ranking_counts := fun _ => List.replicate 5 0
    space_landing_counts := fun _ => 0
    win_counts := fun _ => 0
    lose_counts := fun _ => 0
    game_ends_count := 0
    total_outcomes := 0 }

/-- Pointwise update of a per-camel table. -/
def bump_camel {α : Type} (f : CamelColor → α) (c : CamelColor) (a : α) :
    CamelColor → α :=
  fun x => if x = c then a else f x

/-- The `for camel in outcome.ranking: ranking_counts[camel][racing_pos] += 1`
loop.  Crazy camels are skipped (`if camel in ranking_counts`); an update
past the end of the 5-slot list is the source's `IndexError`. -/
def bump_ranking (counts : CamelColor → List Nat) (racing_pos : Nat) :
    List CamelColor → Except Unit (CamelColor → List Nat)
  | [] => .ok counts
  | camel :: rest =>
    if camel.is_racing_camel then
      if racing_pos < (counts camel).length then
        bump_ranking
          (bump_camel counts camel
            ((counts camel).set racing_pos ((counts camel).getD racing_pos 0 + 1)))
          (racing_pos + 1) rest
      else .error ()
    else bump_ranking counts racing_pos rest

/-- One iteration of the outcome loop of `calculate_all_probabilities`. -/
def tally_outcome (t : Tally) (o : LegOutcome) : Except Unit Tally := do
  let rc ← bump_ranking t.ranking_counts 0 o.ranking
  let sc := o.spaces_landed.foldl
    (fun f space => fun x => if x = space then f x + 1 else f x)
    t.space_landing_counts
  let (wc, lc, ge) :=
    if o.game_finished then
      let racing_ranking := o.ranking.filter (·.is_racing_camel)
      match racing_ranking.head?, racing_ranking.getLast? with
      | some winner, some loser =>
        (bump_camel t.win_counts winner (t.win_counts winner + 1),
         bump_camel t.lose_counts loser (t.lose_counts loser + 1),
         t.game_ends_count + 1)
      | _, _ => (t.win_counts, t.lose_counts, t.game_ends_count + 1)
    else (t.win_counts, t.lose_counts, t.game_ends_count)
  .ok { ranking_counts := rc
        space_landing_counts := sc
        win_counts := wc
        lose_counts := lc
        game_ends_count := ge
        total_outcomes := t.total_outcomes + 1 }

/-- The counting phase of `calculate_all_probabilities`. -/
def calculate_tallies (b : Board) (remaining_racing_dice : List DieColor)
    (grey_die_available : Bool) : Except Unit Tally :=
  (enumerated_outcomes b remaining_racing_dice grey_die_available).foldlM
    tally_outcome init_tally

/-- Source `FullProbabilities`, with each probability an exact rational. -/
structure FullProbabilities where
  ranking_probabilities : CamelColor → List ℚ
  space_probs : Nat → ℚ
  win_probs : CamelColor → ℚ
  lose_probs : CamelColor → ℚ
  prob_game_ends : ℚ

/-- The `counts → probabilities` conversion at the end of
`calculate_all_probabilities` (including the zero-total guard and the
fallback to leg-ranking probabilities when no enumerated sequence ends the
game). -/
def probabilities_of_tally (t : Tally) : FullProbabilities :=
  if t.total_outcomes = 0 then
    { ranking_probabilities := fun _ => List.replicate 5 0
      space_probs := fun _ => 0
      win_probs := fun _ => 0
      lose_probs := fun _ => 0
      prob_game_ends := 0 }
  else
    let total : ℚ := t.total_outcomes
    let ranking_probabilities := fun c =>
      (t.ranking_counts c).map fun k => ((k : Nat) : ℚ) / total
    { ranking_probabilities := ranking_probabilities
      space_probs := fun s => (t.space_landing_counts s : ℚ) / total
      win_probs := fun c =>
        if t.game_ends_count = 0 then (ranking_probabilities c).getD 0 0
        else (t.win_counts c : ℚ) / (t.game_ends_count : ℚ)
      lose_probs := fun c =>
        if t.game_ends_count = 0 then (ranking_probabilities c).getD 4 0
        else (t.lose_counts c : ℚ) / (t.game_ends_count : ℚ)
      prob_game_ends := (t.game_ends_count : ℚ) / total }

/-- Source `calculate_all_probabilities` (an `IndexError` during counting aborts
the whole call, exactly as in the source). -/
def calculate_all_probabilities (b : Board)
    (remaining_racing_dice : List DieColor) (grey_die_available : Bool) :
    Except Unit FullProbabilities :=
  (calculate_tallies b remaining_racing_dice grey_die_available).map
    probabilities_of_tally

/-! ## Betting ledger (src/game/betting.py) -/

/-- Source `TICKET_VALUES = (5, 3, 2, 2)`, top of the stack first. -/
def TICKET_VALUES : List Nat := [5, 3, 2, 2]

/-- Source `OVERALL_PAYOUTS = (8, 5, 3, 2, 1, 1, 1, 1)`. -/
def OVERALL_PAYOUTS : List Int := [8, 5, 3, 2, 1, 1, 1, 1]

/-- Source `BettingTicket`. -/
structure BettingTicket where
  camel : CamelColor
  value : Nat
deriving DecidableEq, Repr

/-- Source `OverallBet`. -/
structure OverallBet where
  camel : CamelColor
  player : Nat
  is_winner_bet : Bool
deriving DecidableEq, Repr

/-- Source `BettingState`.  The per-camel ticket dictionary (keyed by the racing
camels) is modelled as a total function that is empty off the racing
camels, matching the source's `dict.get(camel, ())` accesses. -/
structure BettingState where
  available_tickets : CamelColor → List Nat
  player_tickets : List (List BettingTicket)
  player_pyramid_tickets : List Nat
  winner_bets : List OverallBet
  loser_bets : List OverallBet

namespace BettingState

/-- Source `BettingState.create_for_players`. -/
def create_for_players (num_players : Nat) : BettingState :=
  { available_tickets := fun c => if c.is_racing_camel then TICKET_VALUES else []
    player_tickets := List.replicate num_players []
    player_pyramid_tickets := List.replicate num_players 0
    winner_bets := []
    loser_bets := [] }

/-- Source `BettingState.get_available_ticket`. -/
def get_available_ticket (b : BettingState) (camel : CamelColor) :
    Option BettingTicket :=
  match b.available_tickets camel with
  | [] => none
  | v :: _ => some ⟨camel, v⟩

/-- Source `BettingState.get_all_available_tickets`.  The source iterates the
`RACING_CAMELS` frozenset in unspecified order; the embedding fixes the
`racing_camels` order (callers only use membership). -/
def get_all_available_tickets (b : BettingState) : List BettingTicket :=
  racing_camels.filterMap b.get_available_ticket

/-- Source `BettingState.take_ticket` (raises when the camel's stack is empty or
the player index is invalid). -/
def take_ticket (b : BettingState) (player : Nat) (camel : CamelColor) :
    Except String BettingState :=
  match b.get_available_ticket camel with
  | none => .error "No tickets available"
  | some ticket =>
    if player < b.player_tickets.length then
      .ok { b with
        available_tickets :=
          bump_camel b.available_tickets camel ((b.available_tickets camel).drop 1)
        player_tickets :=
          b.player_tickets.set player (b.player_tickets.getD player [] ++ [ticket]) }
    else .error "Invalid player index"

/-- Source `BettingState.take_pyramid_ticket` (raises on an invalid player index). -/
def take_pyramid_ticket (b : BettingState) (player : Nat) :
    Except String BettingState :=
  if player < b.player_pyramid_tickets.length then
    .ok { b with
      player_pyramid_tickets :=
        b.player_pyramid_tickets.set player
          (b.player_pyramid_tickets.getD player 0 + 1) }
  else .error "Invalid player index"

/-- Source `BettingState.place_overall_bet`. -/
def place_overall_bet (b : BettingState) (player : Nat) (camel : CamelColor)
    (is_winner_bet : Bool) : BettingState :=
  let bet : OverallBet := ⟨camel, player, is_winner_bet⟩
  if is_winner_bet then { b with winner_bets := b.winner_bets ++ [bet] }
  else { b with loser_bets := b.loser_bets ++ [bet] }

/-- Source `BettingState.reset_for_new_leg`: restore every ticket stack, clear the
per-player collections and pyramid counters, keep the overall-bet queues. -/
def reset_for_new_leg (b : BettingState) : BettingState :=
  let num_players := b.player_tickets.length
  { available_tickets := fun c => if c.is_racing_camel then TICKET_VALUES else []
    player_tickets := List.replicate num_players []
    player_pyramid_tickets := List.replicate num_players 0
    winner_bets := b.winner_bets
    loser_bets := b.loser_bets }

end BettingState

/-- Source `calculate_leg_scores`: per-player coin change at leg end. -/
def calculate_leg_scores (betting : BettingState) (first_place : CamelColor)
    (second_place : CamelColor) : List Int :=
  (List.range betting.player_tickets.length).map fun player =>
    ((betting.player_tickets.getD player []).map fun ticket =>
      if ticket.camel = first_place then (ticket.value : Int)
      else if ticket.camel = second_place then 1
      else -1).sum
    + (betting.player_pyramid_tickets.getD player 0 : Int)

/-- The `scores[bet.player] += ...` walk over one overall-bet queue; the
payout index is capped at the end of the payout table.  (An out-of-range
player index would raise in the source; bets are only ever created with
valid indices.) -/
def score_overall_bets (scores : List Int) (bets : List OverallBet)
    (actual : CamelColor) : List Int :=
  (bets.foldl (fun acc bet =>
    let (scores, correct_count) := acc
    if bet.camel = actual then
      (scores.set bet.player
        (scores.getD bet.player 0 +
          OVERALL_PAYOUTS.getD (min correct_count (OVERALL_PAYOUTS.length - 1)) 0),
       correct_count + 1)
    else
      (scores.set bet.player (scores.getD bet.player 0 - 1), correct_count))
    (scores, 0)).1

/-- Source `calculate_overall_scores`: winner queue scored against the race winner,
then the loser queue against the race loser. -/
def calculate_overall_scores (betting : BettingState) (winner : CamelColor)
    (loser : CamelColor) : List Int :=
  let scores := List.replicate betting.player_tickets.length (0 : Int)
  score_overall_bets (score_overall_bets scores betting.winner_bets winner)
    betting.loser_bets loser

/-- Source `PlayerState`. -/
structure PlayerState where
  coins : Int
  has_spectator_tile : Bool
  available_finish_cards : List CamelColor
deriving DecidableEq, Repr

namespace PlayerState

/-- The default player state (3 coins, tile in hand, all finish cards). -/
def init : PlayerState :=
  { coins := 3, has_spectator_tile := true, available_finish_cards := racing_camels }

/-- Source `PlayerState.add_coins` (floored at 0). -/
def add_coins (p : PlayerState) (amount : Int) : PlayerState :=
  { p with coins := max 0 (p.coins + amount) }

/-- Source `PlayerState.use_spectator_tile`. -/
def use_spectator_tile (p : PlayerState) : PlayerState :=
  { p with has_spectator_tile := false }

/-- Source `PlayerState.return_spectator_tile`. -/
def return_spectator_tile (p : PlayerState) : PlayerState :=
  { p with has_spectator_tile := true }

/-- Source `PlayerState.use_finish_card` (raises when the card is not held). -/
def use_finish_card (p : PlayerState) (camel : CamelColor) :
    Except String PlayerState :=
  if camel ∈ p.available_finish_cards then
    .ok { p with available_finish_cards :=
      p.available_finish_cards.filter (· ≠ camel) }
  else .error "Finish card not available"

/-- Source `PlayerState.can_bet_on_overall`. -/
def can_bet_on_overall (p : PlayerState) (camel : CamelColor) : Bool :=
  camel ∈ p.available_finish_cards

end PlayerState

/-- Source `get_tile_payout` from src/game/spectator.py. -/
def get_tile_payout : Int := 1

/-! ## Game state machine (src/game/game.py) -/

/-- Source `ActionType`. -/
inductive ActionType where
  | take_betting_ticket
  | place_spectator_tile
  | take_pyramid_ticket
  | bet_overall_winner
  | bet_overall_loser
deriving DecidableEq, Repr

/-- Source `Action` (unused parameter fields are `none`, as in the source). -/
structure Action where
  action_type : ActionType
  camel : Option CamelColor := none
  space : Option Nat := none
  is_cheering : Option Bool := none
deriving DecidableEq, Repr

/-- Source `DieRoll`: the outcome of one pyramid draw.  `apply_action` takes the
draw as an explicit oracle argument in place of the source's `rng`; the rng
always selects an available die and a legal face. -/
structure DieRoll where
  color : DieColor
  value : Nat
  crazy_camel : Option CamelColor := none
deriving DecidableEq, Repr

/-- Source `GameState` (the source's `rng_state` bookkeeping field is abstracted
away together with the rng itself). -/
structure GameState where
  board : Board
  pyramid : Pyramid
  betting : BettingState
  players : List PlayerState
  current_player : Nat
  leg_number : Nat
  is_game_over : Bool
  last_pyramid_ticket_player : Option Nat

namespace GameState

/-- Source `GameState.get_legal_actions`. -/
def get_legal_actions (s : GameState) : List Action :=
  if s.is_game_over then []
  else
    let player_state := s.players.getD s.current_player PlayerState.init
    let ticket_actions := (s.betting.get_all_available_tickets).map fun ticket =>
      ({ action_type := .take_betting_ticket, camel := some ticket.camel } : Action)
    let tile_actions :=
      if player_state.has_spectator_tile then
        (s.board.get_valid_spectator_spaces s.current_player).flatMap fun space =>
          [({ action_type := .place_spectator_tile, space := some space,
              is_cheering := some true } : Action),
           ({ action_type := .place_spectator_tile, space := some space,
              is_cheering := some false } : Action)]
      else []
    let pyramid_actions :=
      if !s.pyramid.is_leg_complete then
        [({ action_type := .take_pyramid_ticket } : Action)]
      else []
    let overall_actions := racing_camels.flatMap fun camel =>
      if player_state.can_bet_on_overall camel then
        [({ action_type := .bet_overall_winner, camel := some camel } : Action),
         ({ action_type := .bet_overall_loser, camel := some camel } : Action)]
      else []
    ticket_actions ++ tile_actions ++ pyramid_actions ++ overall_actions

/-- Apply a list of per-player coin changes
(`for i, score in enumerate(scores): players[i].add_coins(score)`). -/
def apply_score_changes (players : List PlayerState) (scores : List Int) :
    List PlayerState :=
  (players.zip (scores ++ List.replicate (players.length - scores.length) 0)).map
    fun psc => psc.1.add_coins psc.2

/-- The pyramid after the drawn die is removed
(`Pyramid.roll_from_pyramid`'s state update for the selected die). -/
def pyramid_after_draw (p : Pyramid) (draw : DieRoll) : Pyramid :=
  if draw.color = .grey then { remaining := p.remaining, grey_rolled := true }
  else { remaining := p.remaining.erase draw.color, grey_rolled := p.grey_rolled }

/-- Source `GameState.apply_action`: apply one action, then run the leg-end /
game-end processing and advance the turn.  Raises (only) in the cases the
source raises: game already over, empty ticket stack, invalid player index,
illegal tile placement, empty pyramid, finish card already spent, or a
malformed action whose required field is `None`. -/
def apply_action (s : GameState) (action : Action) (draw : DieRoll) :
    Except String GameState := do
  if s.is_game_over then
    throw "Game is already over"
  let player := s.current_player
  let player_state := s.players.getD player PlayerState.init
  let (new_board, new_pyramid, new_betting, new_players, new_last) ←
    (match action.action_type with
    | .take_betting_ticket =>
      match action.camel with
      | some camel => do
        let nb ← s.betting.take_ticket player camel
        pure (s.board, s.pyramid, nb, s.players, s.last_pyramid_ticket_player)
      | none => throw "No tickets available"
    | .place_spectator_tile =>
      match action.space, action.is_cheering with
      | some space, some cheer => do
        let nboard ← s.board.place_spectator_tile space player cheer
        pure (nboard, s.pyramid, s.betting,
          s.players.set player player_state.use_spectator_tile,
          s.last_pyramid_ticket_player)
      | _, _ => throw "Cannot place spectator tile"
    | .take_pyramid_ticket => do
      let nb ← s.betting.take_pyramid_ticket player
      if s.pyramid.remaining.isEmpty && s.pyramid.grey_rolled then
        throw "No dice remaining in pyramid"
      let np := pyramid_after_draw s.pyramid draw
      let (board2, spectator_owner) :=
        if draw.color = .grey then
          let grey_die_camel :=
            if draw.crazy_camel = some CamelColor.white then CamelColor.white
            else CamelColor.black
          let camel := s.board.camel_positions.get_crazy_camel_to_move grey_die_camel
          s.board.move_camel camel (-(draw.value : Int))
        else
          match die_to_camel draw.color with
          | some camel => s.board.move_camel camel (draw.value : Int)
          | none => (s.board, none)
      let players2 :=
        match spectator_owner with
        | some owner =>
          s.players.set owner
            ((s.players.getD owner PlayerState.init).add_coins get_tile_payout)
        | none => s.players
      pure (board2, np, nb, players2, some player)
    | .bet_overall_winner =>
      match action.camel with
      | some camel => do
        let nb := s.betting.place_overall_bet player camel true
        let ps2 ← player_state.use_finish_card camel
        pure (s.board, s.pyramid, nb, s.players.set player ps2,
          s.last_pyramid_ticket_player)
      | none => throw "Finish card not available"
    | .bet_overall_loser =>
      match action.camel with
      | some camel => do
        let nb := s.betting.place_overall_bet player camel false
        let ps2 ← player_state.use_finish_card camel
        pure (s.board, s.pyramid, nb, s.players.set player ps2,
          s.last_pyramid_ticket_player)
      | none => throw "Finish card not available" :
      Except String (Board × Pyramid × BettingState × List PlayerState × Option Nat))
  -- Check for game end and leg end
  let game_over := new_board.is_game_over
  let leg_ended := new_pyramid.is_leg_complete && !game_over
  -- Process leg end (leg scores, then reset when the game continues)
  let (board3, pyramid3, betting3, players3, leg3) :=
    if leg_ended || game_over then
      let ranking := new_board.get_ranking
      let players_scored :=
        match ranking.head?, ranking.get? 1 with
        | some first, some second =>
          apply_score_changes new_players (calculate_leg_scores new_betting first second)
        | _, _ => new_players
      if !game_over then
        (new_board.clear_all_spectator_tiles, Pyramid.fresh,
         new_betting.reset_for_new_leg,
         players_scored.map PlayerState.return_spectator_tile,
         s.leg_number + 1)
      else (new_board, new_pyramid, new_betting, players_scored, s.leg_number)
    else (new_board, new_pyramid, new_betting, new_players, s.leg_number)
  -- Process game end (overall bets)
  let players4 :=
    if game_over then
      let ranking := board3.get_ranking
      match ranking.head?, ranking.getLast? with
      | some winner, some loser =>
        apply_score_changes players3 (calculate_overall_scores betting3 winner loser)
      | _, _ => players3
    else players3
  -- Advance to the next player (starting-player rule after a leg end)
  let (next_player, last2) :=
    if leg_ended then
      match new_last with
      | some lp => ((lp + 1) % players4.length, none)
      | none => ((player + 1) % players4.length, new_last)
    else ((player + 1) % players4.length, new_last)
  pure { board := board3
         pyramid := pyramid3
         betting := betting3
         players := players4
         current_player := next_player
         leg_number := leg3
         is_game_over := game_over
         last_pyramid_ticket_player := last2 }

end GameState

/-! ## Derived notions used in the claim statements -/

/-- Total number of occurrences of a camel across all stacks.  The intended
board invariant is that this is at most 1 for every camel. -/
def count_camel (ps : CamelPositions) (x : CamelColor) : Nat :=
  (ps.stacks'.map fun st => st.count x).sum

/-- Predicate: every racing camel is on the board exactly once. -/
def racing_placed_once (ps : CamelPositions) : Prop :=
  ∀ x : CamelColor, x.is_racing_camel = true → count_camel ps x = 1

/-- Predicate: no crazy camel occupies space 0 or space 1 (camels enter the
track at spaces 1–3 and space 0 is unused; a crazy camel at space 1 is the
one situation where a backward move can clamp back onto its own space). -/
def no_crazy_near_start (ps : CamelPositions) : Prop :=
  ∀ x : CamelColor, x.is_crazy_camel = true →
    x ∉ ps.get_stack 0 ∧ x ∉ ps.get_stack 1

/-- The camel whose spaces the loop body of `simulate_sequence_with_grey`
compares before and after the move: the racing camel matching a racing die,
or the crazy camel selected by the priority rule for the grey die. -/
def rolled_camel (b : Board) : Roll → Option CamelColor
  | .racing d _ => die_to_camel d
  | .grey cam _ => some (b.camel_positions.get_crazy_camel_to_move cam)

/-- Spec-side condition for the crazy-camel rule 1: some racing camel sits
above `c` in `c`'s stack. -/
def carries_racer (ps : CamelPositions) (c : CamelColor) : Prop :=
  ∃ s h, ps.find_camel c = some (s, h) ∧
    ∃ i r, h < i ∧ (ps.get_stack s)[i]? = some r ∧ r.is_racing_camel = true

/-- Spec-side condition for the crazy-camel rule 2: White and Black share a
space with no racing camel strictly between them in the stack; the value
also records both heights. -/
def crazy_directly_stacked (ps : CamelPositions) (s hw hb : Nat) : Prop :=
  ps.find_camel .white = some (s, hw) ∧ ps.find_camel .black = some (s, hb) ∧
    ∀ i r, min hw hb < i → i < max hw hb →
      (ps.get_stack s)[i]? = some r → r.is_racing_camel = false

/-- Sum, over the five racing camels, of the probability of finishing at one
rank position (the column sums of the ranking distribution). -/
def ranking_position_sum (p : FullProbabilities) (pos : Nat) : ℚ :=
  (racing_camels.map fun c => (p.ranking_probabilities c).getD pos 0).sum

/-- Sum, over the five rank positions, of one camel's probabilities (the row
sums of the ranking distribution). -/
def ranking_camel_sum (p : FullProbabilities) (c : CamelColor) : ℚ :=
  ((List.range 5).map fun pos => (p.ranking_probabilities c).getD pos 0).sum

/-! ## Concrete fixtures used by counterexamples and witnesses -/

/-- The board of the repository's own
`TestLegStopsAfterFiveDice.test_sixth_die_not_simulated`: Blue at 14,
Green at 15, the other racers at 1, both crazy camels at 10, no tiles. -/
def sixth_die_board : Board :=
  ⟨⟨[[], [.yellow, .red, .purple], [], [], [], [], [], [], [], [],
     [.white, .black], [], [], [], [.blue], [.green], [], [], [], [], []]⟩, []⟩

/-- A board with Blue at space 2 and a booing tile on space 3: when Blue
rolls a 1 it lands on the tile and is pushed back onto its own space. -/
def boo_net_zero_board : Board :=
  ⟨⟨[[], [.purple], [.blue], [], [], [.green], [.yellow], [.red],
     [], [], [], [], [], [], [], [], [], [], [], [], []]⟩,
   [(3, ⟨0, false⟩)]⟩

/-- A tile-free board with the five racing camels spread on spaces 1–5 and
the crazy camels at 14 and 15. -/
def spread_board : Board :=
  ⟨⟨[[], [.blue], [.green], [.yellow], [.red], [.purple],
     [], [], [], [], [], [], [], [], [.white], [.black], [], [], [], [], []]⟩, []⟩

/-- Positions with Green, Blue, Red stacked on space 2 (Green bottom). -/
def stack_of_three : CamelPositions :=
  ⟨[[], [], [.green, .blue, .red], [], []]⟩

/-- Positions with a single camel (Blue) on space 1. -/
def lone_blue_at_one : CamelPositions :=
  ⟨[[], [.blue], [], []]⟩

/-- Positions with White carrying a racing camel (Blue) and Black alone:
White at 5 under Blue, Black at 8. -/
def white_carries_board : CamelPositions :=
  ⟨[[], [], [], [], [], [.white, .blue], [], [], [.black], []]⟩

/-- A mid-game state whose pyramid is leg-complete (only Blue's die is
undrawn and the grey die has been rolled): `take_pyramid_ticket` is not in
the legal-action list, yet `apply_action` processes it. -/
def leg_complete_state : GameState :=
  { board := ⟨⟨[[], [.blue, .green], [.yellow], [.red, .purple], [], [], [],
       [], [], [], [], [], [], [], [.white], [.black], [], [], [], [], []]⟩, []⟩
    pyramid := { remaining := [.blue], grey_rolled := true }
    betting := .create_for_players 2
    players := [.init, .init]
    current_player := 0
    leg_number := 1
    is_game_over := false
    last_pyramid_ticket_player := none }

/-- An already-finished game state (Blue past the finish line). -/
def finished_state : GameState :=
  { leg_complete_state with
    board := ⟨⟨[[], [.green], [.yellow], [.red, .purple], [], [], [], [], [],
       [], [], [], [], [], [.white], [.black], [], [.blue], [], [], []]⟩, []⟩
    is_game_over := true }

/-- Whether a roll is the grey die (each enumerated sequence contains at
most one). -/
def is_grey_roll : Roll → Bool
  | .grey _ _ => true
  | .racing _ _ => false

/-- Well-formedness of a roll as produced by the enumeration: die values
come from `DICE_VALUES` (so are at least 1) and the grey die indicates one
of the two crazy camels. -/
def roll_ok : Roll → Prop
  | .racing _ v => 1 ≤ v
  | .grey cam v => 1 ≤ v ∧ (cam = .white ∨ cam = .black)

/-- Column sums of a ranking-count table: total count at one rank position
across the five racing camels. -/
def col_sum (counts : CamelColor → List Nat) (p : Nat) : Nat :=
  (racing_camels.map fun c => (counts c).getD p 0).sum

/-- Row sums of a ranking-count table: total count of one camel across the
five rank positions. -/
def row_sum (counts : CamelColor → List Nat) (c : CamelColor) : Nat :=
  ((List.range 5).map fun p => (counts c).getD p 0).sum

/-! ## List utilities -/

theorem getD_set_self {α : Type} {l : List α} {i : Nat} {a d : α}
    (h : i < l.length) : (l.set i a).getD i d = a := by
  rw [List.getD_eq_getElem?_getD, List.getElem?_set_self h]
  rfl

theorem getD_set_ne {α : Type} {l : List α} {i j : Nat} {a d : α}
    (h : i ≠ j) : (l.set i a).getD j d = l.getD j d := by
  rw [List.getD_eq_getElem?_getD, List.getElem?_set_ne h,
    ← List.getD_eq_getElem?_getD]

theorem sum_map_set (g : CamelStack → Nat) :
    ∀ (l : List CamelStack) (i : Nat), i < l.length → ∀ a : CamelStack,
      ((l.set i a).map g).sum + g (l.getD i []) = (l.map g).sum + g a := by
  intro l
  induction l with
  | nil => intro i hi; simp at hi
  | cons x rest ih =>
    intro i hi a
    cases i with
    | zero => simp [List.getD]; omega
    | succ n =>
      have hlen : n < rest.length := by simpa using hi
      have := ih n hlen a
      simp only [List.set_cons_succ, List.map_cons, List.sum_cons,
        List.getD_cons_succ]
      omega

theorem getD_extend_stacks (L : List CamelStack) (n i : Nat) :
    (CamelPositions.extend_stacks L n).getD i [] = L.getD i [] := by
  unfold CamelPositions.extend_stacks
  by_cases h : i < L.length
  · exact List.getD_append _ _ _ _ h
  · rw [List.getD_append_right _ _ _ _ (by omega)]
    rw [List.getD_eq_getElem?_getD, List.getD_eq_getElem?_getD]
    have h1 : L[i]? = none := List.getElem?_eq_none (by omega)
    rw [h1]
    cases h2 : (List.replicate (n - L.length) ([] : CamelStack))[i - L.length]? with
    | none => rfl
    | some v =>
      have := List.getElem?_mem h2
      simp [List.eq_of_mem_replicate this]

theorem length_extend_stacks (L : List CamelStack) (n : Nat) :
    (CamelPositions.extend_stacks L n).length = max L.length n := by
  unfold CamelPositions.extend_stacks
  simp [List.length_append, List.length_replicate]
  omega

theorem sum_map_extend_stacks (g : CamelStack → Nat) (hg : g [] = 0)
    (L : List CamelStack) (n : Nat) :
    ((CamelPositions.extend_stacks L n).map g).sum = (L.map g).sum := by
  unfold CamelPositions.extend_stacks
  rw [List.map_append, List.sum_append]
  have hz : ∀ m, ((List.replicate m ([] : CamelStack)).map g).sum = 0 := by
    intro m
    induction m with
    | zero => rfl
    | succ k ih => simp [List.replicate, ih, hg]
  rw [hz, Nat.add_zero]

theorem perm_ordered_insert {α : Type} (le : α → α → Bool) (a : α) :
    ∀ l : List α, (CamelPositions.ordered_insert le a l).Perm (a :: l) := by
  intro l
  induction l with
  | nil => exact List.Perm.refl _
  | cons b t ih =>
    unfold CamelPositions.ordered_insert
    by_cases h : le a b
    · rw [if_pos h]
    · rw [if_neg h]
      exact (ih.cons b).trans (List.Perm.swap a b t)

theorem perm_sort_by {α : Type} (le : α → α → Bool) :
    ∀ l : List α, (CamelPositions.sort_by le l).Perm l := by
  intro l
  induction l with
  | nil => exact List.Perm.refl _
  | cons a t ih =>
    unfold CamelPositions.sort_by
    exact (perm_ordered_insert le a _).trans (ih.cons a)

/-! ## Facts about positions and movement -/

theorem position_of_spec {c : CamelColor} :
    ∀ {st : CamelStack} {h : Nat}, position_of c st = some h →
      h < st.length ∧ st[h]? = some c := by
  intro st
  induction st with
  | nil => intro h hp; simp [position_of] at hp
  | cons x rest ih =>
    intro h hp
    by_cases hx : x = c
    · simp [position_of, hx] at hp
      subst hp
      simp [hx]
    · simp only [position_of, if_neg hx, Option.map_eq_some'] at hp
      obtain ⟨a, ha, rfl⟩ := hp
      obtain ⟨h1, h2⟩ := ih ha
      exact ⟨by simpa using Nat.succ_lt_succ h1, by simpa using h2⟩

theorem position_of_none {c : CamelColor} :
    ∀ {st : CamelStack}, position_of c st = none ↔ c ∉ st := by
  intro st
  induction st with
  | nil => simp [position_of]
  | cons x rest ih =>
    by_cases hx : x = c
    · simp [position_of, hx]
    · simp [position_of, hx, ih, Ne.symm hx]

theorem mem_of_position_of {c : CamelColor} {st : CamelStack} {h : Nat}
    (hp : position_of c st = some h) : c ∈ st :=
  List.getElem?_mem (position_of_spec hp).2

theorem find_camel_from_spec {c : CamelColor} :
    ∀ {L : List CamelStack} {k s h : Nat},
      CamelPositions.find_camel_from c k L = some (s, h) →
      ∃ i, i < L.length ∧ s = k + i ∧ position_of c (L.getD i []) = some h := by
  intro L
  induction L with
  | nil => intro k s h hp; simp [CamelPositions.find_camel_from] at hp
  | cons st rest ih =>
    intro k s h hp
    unfold CamelPositions.find_camel_from at hp
    cases hpos : position_of c st with
    | some h0 =>
      rw [hpos] at hp
      simp at hp
      obtain ⟨rfl, rfl⟩ := hp
      exact ⟨0, by simp, by omega, by simpa using hpos⟩
    | none =>
      rw [hpos] at hp
      obtain ⟨i, hi, rfl, hpi⟩ := ih hp
      exact ⟨i + 1, by simpa using Nat.succ_lt_succ hi, by omega, by simpa using hpi⟩

theorem find_camel_spec {ps : CamelPositions} {c : CamelColor} {s h : Nat}
    (hp : ps.find_camel c = some (s, h)) :
    s < ps.stacks'.length ∧ position_of c (ps.get_stack s) = some h := by
  obtain ⟨i, hi, hs, hpi⟩ := find_camel_from_spec hp
  subst hs
  exact ⟨by simpa using hi, by simpa [CamelPositions.get_stack] using hpi⟩

theorem mem_stack_of_find_camel {ps : CamelPositions} {c : CamelColor}
    {s h : Nat} (hp : ps.find_camel c = some (s, h)) : c ∈ ps.get_stack s :=
  mem_of_position_of (find_camel_spec hp).2

/-- Explicit form of the present-camel branch of `CamelPositions.move_camel`. -/
theorem move_camel_eq {ps : CamelPositions} {c : CamelColor}
    {spaces : Int} {u : Bool} {s h : Nat}
    (hf : ps.find_camel c = some (s, h)) :
    ps.move_camel c spaces u = .ok
      ⟨((CamelPositions.extend_stacks ps.stacks'
          ((max 1 ((s : Int) + spaces)).toNat + 1)).set s
          ((ps.stacks'.getD s []).take h)).set
        ((max 1 ((s : Int) + spaces)).toNat)
        (if u then (ps.stacks'.getD s []).drop h ++
            (if (max 1 ((s : Int) + spaces)).toNat < ps.stacks'.length
             then ps.stacks'.getD ((max 1 ((s : Int) + spaces)).toNat) [] else [])
         else (if (max 1 ((s : Int) + spaces)).toNat < ps.stacks'.length
             then ps.stacks'.getD ((max 1 ((s : Int) + spaces)).toNat) [] else [])
            ++ (ps.stacks'.getD s []).drop h)⟩ := by
  have hpos : position_of c (ps.stacks'.getD s []) = some h :=
    (find_camel_spec hf).2
  simp only [CamelPositions.move_camel, hf, remove_camels_from, hpos]

/-- Value of `getD` on the board produced by `move_camel_eq`, at the origin,
the destination, and any other space (assuming destination ≠ origin). -/
theorem move_camel_char {ps : CamelPositions} {c : CamelColor}
    {spaces : Int} {u : Bool} {s h : Nat}
    (hf : ps.find_camel c = some (s, h))
    (hne : (max 1 ((s : Int) + spaces)).toNat ≠ s) :
    ∃ ps2, ps.move_camel c spaces u = .ok ps2 ∧
      (ps2.get_stack s = (ps.get_stack s).take h ∧
       ps2.get_stack ((max 1 ((s : Int) + spaces)).toNat) =
         (if u then (ps.get_stack s).drop h ++
             ps.get_stack ((max 1 ((s : Int) + spaces)).toNat)
          else ps.get_stack ((max 1 ((s : Int) + spaces)).toNat) ++
             (ps.get_stack s).drop h) ∧
       ∀ t, t ≠ s → t ≠ (max 1 ((s : Int) + spaces)).toNat →
         ps2.get_stack t = ps.get_stack t) := by
  have hs_lt : s < ps.stacks'.length := (find_camel_spec hf).1
  refine ⟨_, move_camel_eq hf, ?_, ?_, ?_⟩
  · dsimp only [CamelPositions.get_stack]
    rw [getD_set_ne hne, getD_set_self (by rw [length_extend_stacks]; omega)]
  · dsimp only [CamelPositions.get_stack]
    rw [getD_set_self (by rw [List.length_set, length_extend_stacks]; omega)]
    have hd : (if (max 1 ((s : Int) + spaces)).toNat < ps.stacks'.length
        then ps.stacks'.getD ((max 1 ((s : Int) + spaces)).toNat) [] else []) =
        ps.stacks'.getD ((max 1 ((s : Int) + spaces)).toNat) [] := by
      by_cases hlt : (max 1 ((s : Int) + spaces)).toNat < ps.stacks'.length
      · simp [hlt]
      · simp only [if_neg hlt]
        rw [List.getD_eq_getElem?_getD, List.getElem?_eq_none (by omega)]
        rfl
    rw [hd]
  · intro t hts htd
    dsimp only [CamelPositions.get_stack]
    rw [getD_set_ne (Ne.symm htd), getD_set_ne (Ne.symm hts), getD_extend_stacks]

/-- Movement to a fresh destination space preserves the number of
occurrences of every camel. -/
theorem move_camel_counts {ps : CamelPositions} {c : CamelColor}
    {spaces : Int} {u : Bool} {s h : Nat}
    (hf : ps.find_camel c = some (s, h))
    (hne : (max 1 ((s : Int) + spaces)).toNat ≠ s) :
    ∃ ps2, ps.move_camel c spaces u = .ok ps2 ∧
      ∀ x, count_camel ps2 x = count_camel ps x := by
  have hs_lt : s < ps.stacks'.length := (find_camel_spec hf).1
  refine ⟨_, move_camel_eq hf, ?_⟩
  intro x
  set dest : Nat := (max 1 ((s : Int) + spaces)).toNat with hdest
  set g : CamelStack → Nat := fun st => st.count x with hg
  set E := CamelPositions.extend_stacks ps.stacks' (dest + 1) with hE
  set origin := ps.stacks'.getD s [] with horigin
  set moving := origin.drop h with hmoving
  set dest_old := if dest < ps.stacks'.length then ps.stacks'.getD dest [] else []
    with hdold
  set merged := if u then moving ++ dest_old else dest_old ++ moving with hmerged
  show ((((E.set s (origin.take h)).set dest merged).map g).sum) = (ps.stacks'.map g).sum
  have hslt : s < E.length := by rw [hE, length_extend_stacks]; omega
  have hdlt : dest < (E.set s (origin.take h)).length := by
    rw [List.length_set, hE, length_extend_stacks]; omega
  have e1 := sum_map_set g E s hslt (origin.take h)
  have e2 := sum_map_set g (E.set s (origin.take h)) dest hdlt merged
  have hEgetD_s : E.getD s [] = origin := by rw [hE, getD_extend_stacks, horigin]
  have hEgetD_d : (E.set s (origin.take h)).getD dest [] = dest_old := by
    rw [getD_set_ne (Ne.symm hne), hE, getD_extend_stacks, hdold]
    by_cases hlt : dest < ps.stacks'.length
    · simp [hlt]
    · simp only [if_neg hlt]
      rw [List.getD_eq_getElem?_getD, List.getElem?_eq_none (by omega)]
      rfl
  rw [hEgetD_s] at e1
  rw [hEgetD_d] at e2
  have eE : (E.map g).sum = (ps.stacks'.map g).sum :=
    sum_map_extend_stacks g (by simp [hg]) _ _
  have esplit : g origin = g (origin.take h) + g moving := by
    simp only [hg, hmoving]
    rw [← List.count_append, List.take_append_drop]
  have emerge : g merged = g dest_old + g moving := by
    rw [hmerged]
    by_cases hu : u = true
    · simp [hu, hg, List.count_append]
      omega
    · simp only [Bool.not_eq_true] at hu
      simp [hu, hg, List.count_append]
  omega

/-! ## Claim C3: the move-camel split / merge algorithm -/

/-- C3 (counterexample): for a camel with camels above and below it and a
move whose clamped destination equals the origin (distance 0 here, as a
booing tile can produce), `move_camel` does NOT leave the camels below
unchanged with the movers merged back on — it duplicates the moving
sub-stack, contradicting the claimed split-and-merge behaviour for
arbitrary signed distances. -/
theorem c3_counterexample_net_zero_move :
    (stack_of_three.move_camel .blue 0 false).toOption.map
        (fun r => r.get_stack 2) =
      some [.green, .blue, .red, .blue, .red] ∧
    (stack_of_three.get_stack 2).take 1 ++ (stack_of_three.get_stack 2).drop 1
      ≠ [.green, .blue, .red, .blue, .red] := by
  decide

/-- C3 (amended: destination space differs from the origin space): moving a
camel found at `(s, h)` over a signed distance `d` with
`max 1 (s + d) ≠ s` carries exactly the camel and the camels above it, in
order, to space `max 1 (s + d)`; the camels below stay at `s`; the movers
merge onto the destination stack on top (or underneath when
`place_underneath` is set); every other space is unchanged.  Applied to the
bottom camel (`h = 0`) this moves the whole stack. -/
theorem c3_move_camel_splits_and_merges {ps : CamelPositions}
    {c : CamelColor} {d : Int} {u : Bool} {s h : Nat}
    (hf : ps.find_camel c = some (s, h))
    (hne : (max 1 ((s : Int) + d)).toNat ≠ s) :
    ∃ ps2, ps.move_camel c d u = .ok ps2 ∧
      ps2.get_stack s = (ps.get_stack s).take h ∧
      ps2.get_stack ((max 1 ((s : Int) + d)).toNat) =
        (if u then (ps.get_stack s).drop h ++
            ps.get_stack ((max 1 ((s : Int) + d)).toNat)
         else ps.get_stack ((max 1 ((s : Int) + d)).toNat) ++
            (ps.get_stack s).drop h) ∧
      (∀ t, t ≠ s → t ≠ (max 1 ((s : Int) + d)).toNat →
        ps2.get_stack t = ps.get_stack t) := by
  exact move_camel_char hf hne

/-- C3 (witness): the bottom camel of the three-camel stack on space 2
moves 2 spaces; all three camels arrive on space 4 in order and space 2 is
emptied. -/
theorem c3_witness :
    ∃ ps2, stack_of_three.move_camel .green 2 false = .ok ps2 ∧
      ps2.get_stack 2 = [] ∧ ps2.get_stack 4 = [.green, .blue, .red] := by
  obtain ⟨ps2, heq, h1, h2, _⟩ :=
    @c3_move_camel_splits_and_merges stack_of_three .green 2 false 2 0
      (by decide) (by decide)
  have h4 : (max 1 (((2 : Nat) : Int) + 2)).toNat = 4 := by decide
  rw [h4] at h2
  refine ⟨ps2, heq, ?_, ?_⟩
  · rw [h1]; decide
  · rw [h2]; decide

/-! ## Claim C8: camel-uniqueness invariant under movement -/

/-- C8 (counterexample): starting from positions where every camel occurs at
most once (a single Blue on space 1), `move_camel` with distance −1 clamps
the destination back onto space 1 and duplicates Blue, so the claimed
invariant preservation for arbitrary camel/distance/flag is false. -/
theorem c8_counterexample_duplication :
    (∀ x, count_camel lone_blue_at_one x ≤ 1) ∧
    (lone_blue_at_one.move_camel .blue (-1) false).toOption.map
      (fun r => count_camel r .blue) = some 2 := by
  decide

/-- C8 (amended: the moved camel is on the board and its clamped destination
differs from its origin space): `move_camel` then preserves the exact
number of occurrences of every camel; in particular each camel still occurs
at most once and the set of camels on the board is unchanged. -/
theorem c8_move_camel_preserves_uniqueness {ps : CamelPositions}
    {c : CamelColor} {d : Int} {u : Bool} {s h : Nat}
    (hf : ps.find_camel c = some (s, h))
    (hne : (max 1 ((s : Int) + d)).toNat ≠ s)
    (huniq : ∀ x, count_camel ps x ≤ 1) :
    ∃ ps2, ps.move_camel c d u = .ok ps2 ∧
      (∀ x, count_camel ps2 x ≤ 1) ∧
      (∀ x, count_camel ps2 x = count_camel ps x) := by
  obtain ⟨ps2, heq, hcount⟩ := move_camel_counts hf hne
  exact ⟨ps2, heq, fun x => (hcount x).le.trans (huniq x), hcount⟩

/-- C8 (witness): moving Blue forward 2 from space 1 keeps every camel
count unchanged (Blue still occurs exactly once). -/
theorem c8_witness :
    ∃ ps2, lone_blue_at_one.move_camel .blue 2 false = .ok ps2 ∧
      count_camel ps2 .blue = count_camel lone_blue_at_one .blue := by
  obtain ⟨ps2, heq, _, hc⟩ :=
    @c8_move_camel_preserves_uniqueness lone_blue_at_one .blue 2 false 1 0
      (by decide) (by decide) (by decide)
  exact ⟨ps2, heq, hc .blue⟩

/-! ## Claim C9: Board.move_camel on an absent camel -/

/-- C9: for a camel that is nowhere in the board's camel positions,
`Board.move_camel` returns the board unchanged with no tile owner: no
error and no placement. -/
theorem c9_absent_camel_is_noop (b : Board) (c : CamelColor) (d : Int)
    (h : b.camel_positions.get_camel_space c = none) :
    b.move_camel c d = (b, none) := by
  unfold Board.move_camel
  rw [h]

/-- C9 (witness): moving Green on a board that only holds Blue changes
nothing. -/
theorem c9_witness :
    (Board.mk lone_blue_at_one []).move_camel .green 3 =
      (Board.mk lone_blue_at_one [], none) :=
  c9_absent_camel_is_noop _ _ _ (by decide)

/-! ## Claim C7: the leg reset of the betting ledger -/

/-- C7: resetting the betting state for a new leg restores every racing
camel's ticket stack to `(5, 3, 2, 2)`, empties every player's collected
tickets, zeroes every pyramid-ticket count, and leaves the overall winner
and loser bet queues exactly as they were. -/
theorem c7_leg_reset_round_trip (b : BettingState) :
    (∀ c : CamelColor, c.is_racing_camel = true →
      b.reset_for_new_leg.available_tickets c = TICKET_VALUES) ∧
    (∀ t ∈ b.reset_for_new_leg.player_tickets, t = []) ∧
    (∀ n ∈ b.reset_for_new_leg.player_pyramid_tickets, n = 0) ∧
    b.reset_for_new_leg.winner_bets = b.winner_bets ∧
    b.reset_for_new_leg.loser_bets = b.loser_bets := by
  refine ⟨fun c hc => ?_, fun t ht => ?_, fun n hn => ?_, rfl, rfl⟩
  · simp [BettingState.reset_for_new_leg, hc]
  · exact List.eq_of_mem_replicate ht
  · exact List.eq_of_mem_replicate hn

/-- C7 (witness): the reset of a concrete three-player ledger restores
Blue's tickets and keeps the (empty) winner queue. -/
theorem c7_witness :
    (BettingState.create_for_players 3).reset_for_new_leg.available_tickets
        .blue = TICKET_VALUES ∧
    (BettingState.create_for_players 3).reset_for_new_leg.winner_bets =
      (BettingState.create_for_players 3).winner_bets :=
  ⟨(c7_leg_reset_round_trip _).1 .blue rfl,
   (c7_leg_reset_round_trip _).2.2.2.1⟩

/-! ## Claim C5: rejection of illegal actions by apply_action -/

/-- C5 (counterexample): in a state whose pyramid is leg-complete, the
pyramid-ticket action is not in `get_legal_actions`, yet `apply_action`
processes it without an error — so `apply_action` does not raise for every
action outside the legal-action list. -/
theorem c5_counterexample_illegal_action_accepted :
    (({ action_type := .take_pyramid_ticket } : Action) ∉
      leg_complete_state.get_legal_actions) ∧
    (leg_complete_state.apply_action { action_type := .take_pyramid_ticket }
      { color := .blue, value := 2 }).toOption.isSome = true := by
  decide

/-- C5 (amended: only the game-over half of the claim holds in general):
whenever the game is already over, `apply_action` raises the
illegal-operation error for every action and every draw, and — the state
being immutable — no part of the state is changed.  Actions outside
`get_legal_actions` are not uniformly rejected; only the specific
sub-operation failures (empty ticket stack, illegal tile placement, spent
finish card, empty pyramid, invalid player index) raise. -/
theorem c5_apply_action_rejects_when_game_over (s : GameState) (a : Action)
    (draw : DieRoll) (h : s.is_game_over = true) :
    s.apply_action a draw = .error "Game is already over" := by
  unfold GameState.apply_action
  simp only [h, if_true]
  rfl

/-- C5 (witness): the finished fixture state rejects a pyramid-ticket
action. -/
theorem c5_witness :
    finished_state.apply_action { action_type := .take_pyramid_ticket }
      { color := .blue, value := 2 } = .error "Game is already over" :=
  c5_apply_action_rejects_when_game_over _ _ _ (by decide)

/-! ## Claim C10: a landing is recorded only when the camel's space changed -/

/-- C10: during sequence replay, the loop body records a landing space for a
die roll only when the moved camel's space after the move differs from its
space before the move (and the recorded space is the camel's new space); in
particular a roll with net displacement zero — e.g. a 1-space move onto a
booing tile that pushes the camel back — contributes nothing to the
space-landing counts. -/
theorem c10_landing_only_when_moved (b : Board) (r : Roll) (c : CamelColor)
    (hc : rolled_camel b r = some c) :
    ((simulate_roll b r).1.camel_positions.get_camel_space c =
        b.camel_positions.get_camel_space c → (simulate_roll b r).2 = none) ∧
    (∀ sp, (simulate_roll b r).2 = some sp →
      (simulate_roll b r).1.camel_positions.get_camel_space c = some sp ∧
      (simulate_roll b r).1.camel_positions.get_camel_space c ≠
        b.camel_positions.get_camel_space c) := by
  cases r with
  | racing d v =>
    simp only [rolled_camel] at hc
    simp only [simulate_roll, hc]
    set old_space := b.camel_positions.get_camel_space c with hold
    set b2 := (b.move_camel c (v : Int)).1 with hb2
    set new_space := b2.camel_positions.get_camel_space c with hnew
    constructor
    · intro heq
      rw [heq]
      simp
    · intro sp hsp
      by_cases hcond :
          (new_space.isSome && (old_space.isNone || decide ¬new_space = old_space)) = true
      · rw [if_pos hcond] at hsp
        refine ⟨hsp, ?_⟩
        simp only [Bool.and_eq_true, Bool.or_eq_true, decide_eq_true_eq,
          Option.isSome_iff_exists, Option.isNone_iff_eq_none] at hcond
        obtain ⟨_, hright⟩ := hcond
        cases hright with
        | inl hnone => rw [hsp, hnone]; simp
        | inr hne => exact hne
      · rw [if_neg hcond] at hsp
        exact absurd hsp (by simp)
  | grey cam v =>
    simp only [rolled_camel, Option.some_inj] at hc
    simp only [simulate_roll, ← hc]
    set actual := b.camel_positions.get_crazy_camel_to_move cam with hactual
    set old_space := b.camel_positions.get_camel_space actual with hold
    set b2 := (b.move_camel actual (-(v : Int))).1 with hb2
    set new_space := b2.camel_positions.get_camel_space actual with hnew
    constructor
    · intro heq
      rw [heq]
      simp
    · intro sp hsp
      by_cases hne : new_space = old_space
      · rw [if_neg (fun hx => hx hne)] at hsp
        exact absurd hsp (by simp)
      · rw [if_pos hne] at hsp
        exact ⟨hsp, hne⟩

/-- C10 (witness): Blue at space 2 rolling a 1 onto the booing tile at
space 3 is pushed back to space 2 — net displacement zero — and the roll
records no landing. -/
theorem c10_witness :
    rolled_camel boo_net_zero_board (.racing .blue 1) = some .blue ∧
    (simulate_roll boo_net_zero_board (.racing .blue 1)).2 = none := by
  refine ⟨by decide, ?_⟩
  exact (c10_landing_only_when_moved boo_net_zero_board (.racing .blue 1) .blue
    (by decide)).1 (by decide)

/-! ## Claim C4: the crazy-camel priority rule -/

theorem racing_ne_crazy {r c : CamelColor} (hr : r.is_racing_camel = true)
    (hc : c.is_crazy_camel = true) : r ≠ c := by
  intro h
  subst h
  cases r <;> simp_all [CamelColor.is_racing_camel, CamelColor.is_crazy_camel]

/-- The code's boolean `has_racing_camels_on_back` decides exactly the
spec-side condition "some racing camel sits above the crazy camel". -/
theorem has_racing_iff_carries {ps : CamelPositions} {c : CamelColor}
    (hc : c.is_crazy_camel = true) :
    ps.has_racing_camels_on_back c = true ↔ carries_racer ps c := by
  unfold CamelPositions.has_racing_camels_on_back
  rw [hc]
  simp only [Bool.not_true, Bool.false_eq_true, if_false]
  cases hfind : ps.find_camel c with
  | none =>
    simp only [Bool.false_eq_true, false_iff]
    rintro ⟨s, h, hf, _⟩
    rw [hfind] at hf
    cases hf
  | some sh =>
    obtain ⟨s, h⟩ := sh
    dsimp only
    have hpos : position_of c (ps.get_stack s) = some h := (find_camel_spec hfind).2
    unfold get_camels_above
    rw [hpos]
    rw [List.any_eq_true]
    constructor
    · rintro ⟨x, hmem, hcond⟩
      simp only [Bool.and_eq_true, decide_eq_true_eq] at hcond
      obtain ⟨hxc, hxr⟩ := hcond
      obtain ⟨j, hj⟩ := List.mem_iff_getElem?.1 hmem
      rw [List.getElem?_drop] at hj
      refine ⟨s, h, hfind, h + j, x, ?_, hj, hxr⟩
      rcases Nat.eq_zero_or_pos j with rfl | hjpos
      · exfalso
        rw [Nat.add_zero] at hj
        have := (position_of_spec hpos).2
        rw [this] at hj
        refine hxc ?_
        injection hj with hj2
        exact hj2.symm
      · omega
    · rintro ⟨s', h', hf', i, r, hi, hg, hr⟩
      rw [hfind] at hf'
      have hs : s' = s ∧ h' = h := by
        injection hf' with hf'
        exact ⟨(congrArg Prod.fst hf').symm, (congrArg Prod.snd hf').symm⟩
      obtain ⟨hse, hhe⟩ := hs
      rw [hse] at hg
      rw [hhe] at hi
      refine ⟨r, ?_, ?_⟩
      · rw [List.mem_iff_getElem?]
        exact ⟨i - h, by rw [List.getElem?_drop]; rw [show h + (i - h) = i by omega]; exact hg⟩
      · simp only [Bool.and_eq_true, decide_eq_true_eq]
        exact ⟨racing_ne_crazy hr hc, hr⟩

/-- When the two crazy camels agree on whether they carry a racing camel,
neither of the rule-1 branches fires. -/
theorem no_unique_carrier {ps : CamelPositions}
    (hiff : carries_racer ps .white ↔ carries_racer ps .black) :
    (ps.has_racing_camels_on_back .white &&
      !ps.has_racing_camels_on_back .black) = false ∧
    (ps.has_racing_camels_on_back .black &&
      !ps.has_racing_camels_on_back .white) = false := by
  have bw := @has_racing_iff_carries ps .white rfl
  have bb := @has_racing_iff_carries ps .black rfl
  have heqb : ps.has_racing_camels_on_back .white =
      ps.has_racing_camels_on_back .black := by
    cases hW : ps.has_racing_camels_on_back .white with
    | true => exact (bb.2 (hiff.1 (bw.1 hW))).symm
    | false =>
      cases hB : ps.has_racing_camels_on_back .black with
      | true => exact absurd (bw.2 (hiff.2 (bb.1 hB))) (by simp [hW])
      | false => rfl
  constructor
  · rw [heqb]
    cases ps.has_racing_camels_on_back .black <;> simp
  · rw [heqb]
    cases ps.has_racing_camels_on_back .black <;> simp

/-- C4: `get_crazy_camel_to_move` implements the priority rule.  (1) If
exactly one of White/Black carries a racing camel on its back, that one is
returned, for either die indication.  (2) Otherwise, if White and Black
share a space with no racing camel between them, the higher of the two is
returned.  (3) Otherwise the die-indicated camel is returned. -/
theorem c4_crazy_camel_priority (ps : CamelPositions) (g : CamelColor) :
    (carries_racer ps .white ∧ ¬ carries_racer ps .black →
      ps.get_crazy_camel_to_move g = .white) ∧
    (carries_racer ps .black ∧ ¬ carries_racer ps .white →
      ps.get_crazy_camel_to_move g = .black) ∧
    (∀ s hw hb, (carries_racer ps .white ↔ carries_racer ps .black) →
      crazy_directly_stacked ps s hw hb →
      ps.get_crazy_camel_to_move g = (if hb < hw then .white else .black)) ∧
    ((carries_racer ps .white ↔ carries_racer ps .black) →
      (∀ s hw hb, ¬ crazy_directly_stacked ps s hw hb) →
      ps.get_crazy_camel_to_move g = g) := by
  have bw := @has_racing_iff_carries ps .white rfl
  have bb := @has_racing_iff_carries ps .black rfl
  unfold CamelPositions.get_crazy_camel_to_move
  refine ⟨?_, ?_, ?_, ?_⟩
  · rintro ⟨hw, hb⟩
    have hwt : ps.has_racing_camels_on_back .white = true := bw.2 hw
    have hbf : ps.has_racing_camels_on_back .black = false := by
      cases hB : ps.has_racing_camels_on_back .black with
      | false => rfl
      | true => exact absurd (bb.1 hB) hb
    rw [if_pos (by simp [hwt, hbf])]
  · rintro ⟨hb, hw⟩
    have hbt : ps.has_racing_camels_on_back .black = true := bb.2 hb
    have hwf : ps.has_racing_camels_on_back .white = false := by
      cases hW : ps.has_racing_camels_on_back .white with
      | false => rfl
      | true => exact absurd (bw.1 hW) hw
    rw [if_neg (by simp [hwf]), if_pos (by simp [hbt, hwf])]
  · rintro s hw hb hiff ⟨hfw, hfb, hbetween⟩
    obtain ⟨hno1, hno2⟩ := no_unique_carrier hiff
    rw [if_neg (by simp [hno1]), if_neg (by simp [hno2]), hfw, hfb]
    dsimp only
    rw [if_pos rfl]
    have hpw : position_of .white (ps.get_stack s) = some hw := (find_camel_spec hfw).2
    have hpb : position_of .black (ps.get_stack s) = some hb := (find_camel_spec hfb).2
    rw [hpw, hpb]
    dsimp only
    have hany : (((ps.get_stack s).drop (min hw hb + 1)).take
        (max hw hb - (min hw hb + 1))).any (·.is_racing_camel) = false := by
      rw [Bool.eq_false_iff]
      intro hx
      rw [List.any_eq_true] at hx
      obtain ⟨r, hmem, hr⟩ := hx
      obtain ⟨j, hj⟩ := List.mem_iff_getElem?.1 hmem
      rw [List.getElem?_take] at hj
      split at hj
      · rw [List.getElem?_drop] at hj
        have := hbetween (min hw hb + 1 + j) r (by omega) (by omega) hj
        simp [this] at hr
      · cases hj
    rw [hany]
    simp
  · rintro hiff hnost
    obtain ⟨hno1, hno2⟩ := no_unique_carrier hiff
    rw [if_neg (by simp [hno1]), if_neg (by simp [hno2])]
    cases hfw : ps.find_camel .white with
    | none => rfl
    | some wsh =>
      obtain ⟨ws, whh⟩ := wsh
      cases hfb : ps.find_camel .black with
      | none => rfl
      | some bsh =>
        obtain ⟨bs, bhh⟩ := bsh
        dsimp only
        by_cases hws : ws = bs
        · subst hws
          rw [if_pos rfl]
          have hpw : position_of .white (ps.get_stack ws) = some whh :=
            (find_camel_spec hfw).2
          have hpb : position_of .black (ps.get_stack ws) = some bhh :=
            (find_camel_spec hfb).2
          rw [hpw, hpb]
          dsimp only
          have hst := hnost ws whh bhh
          unfold crazy_directly_stacked at hst
          push_neg at hst
          obtain ⟨i, r, hi1, hi2, hg2, hr⟩ := hst hfw hfb
          have hr2 : r.is_racing_camel = true := by
            cases hx : r.is_racing_camel
            · exact absurd hx hr
            · rfl
          have hany : (((ps.get_stack ws).drop (min whh bhh + 1)).take
              (max whh bhh - (min whh bhh + 1))).any (·.is_racing_camel) = true := by
            rw [List.any_eq_true]
            refine ⟨r, ?_, hr2⟩
            rw [List.mem_iff_getElem?]
            refine ⟨i - (min whh bhh + 1), ?_⟩
            rw [List.getElem?_take, if_pos (by omega), List.getElem?_drop,
              show min whh bhh + 1 + (i - (min whh bhh + 1)) = i by omega]
            exact hg2
          rw [hany]
          simp
        · rw [if_neg hws]

/-- C4 (witness): with White at 5 carrying Blue and Black alone at 8,
the rule returns White for either die indication. -/
theorem c4_witness :
    white_carries_board.get_crazy_camel_to_move .black = .white ∧
    white_carries_board.get_crazy_camel_to_move .white = .white := by
  have hcar : carries_racer white_carries_board .white :=
    ⟨5, 0, by decide, 1, .blue, by decide, by decide, by decide⟩
  have hncar : ¬ carries_racer white_carries_board .black := by
    rintro ⟨s, h, hf, i, r, hi, hg, hr⟩
    have : s = 8 ∧ h = 0 := by
      have hf8 : white_carries_board.find_camel .black = some (8, 0) := by decide
      rw [hf8] at hf
      injection hf with hf
      exact ⟨congrArg Prod.fst hf.symm, congrArg Prod.snd hf.symm⟩
    obtain ⟨rfl, rfl⟩ := this
    have hstack : white_carries_board.get_stack 8 = [.black] := by decide
    rw [hstack] at hg
    rw [List.getElem?_eq_some_iff] at hg
    obtain ⟨hlt, _⟩ := hg
    simp at hlt
    omega
  exact ⟨(c4_crazy_camel_priority white_carries_board .black).1 ⟨hcar, hncar⟩,
    (c4_crazy_camel_priority white_carries_board .white).1 ⟨hcar, hncar⟩⟩

/-! ## Claim C6: enumeration sizes -/

theorem sum_map_const {α : Type} (l : List α) (k : Nat) :
    (l.map fun _ => k).sum = l.length * k := by
  induction l with
  | nil => simp
  | cons a t ih => simp [ih, Nat.succ_mul, Nat.add_comm]

theorem mem_insert_everywhere {α : Type} {x : α} :
    ∀ {l q : List α}, q ∈ insert_everywhere x l → q.Perm (x :: l) := by
  intro l
  induction l with
  | nil =>
    intro q hq
    simp only [insert_everywhere, List.mem_singleton] at hq
    subst hq
    exact List.Perm.refl _
  | cons y rest ih =>
    intro q hq
    simp only [insert_everywhere, List.mem_cons, List.mem_map] at hq
    rcases hq with rfl | ⟨p, hp, rfl⟩
    · exact List.Perm.refl _
    · exact ((ih hp).cons y).trans (List.Perm.swap x y rest)

theorem length_insert_everywhere {α : Type} (x : α) :
    ∀ l : List α, (insert_everywhere x l).length = l.length + 1 := by
  intro l
  induction l with
  | nil => rfl
  | cons y rest ih => simp [insert_everywhere, ih]

theorem mem_permutations_of {α : Type} :
    ∀ {l q : List α}, q ∈ permutations_of l → q.Perm l := by
  intro l
  induction l with
  | nil =>
    intro q hq
    simp only [permutations_of, List.mem_singleton] at hq
    subst hq
    exact List.Perm.refl _
  | cons x rest ih =>
    intro q hq
    simp only [permutations_of, List.mem_flatMap] at hq
    obtain ⟨p, hp, hq2⟩ := hq
    exact (mem_insert_everywhere hq2).trans ((ih hp).cons x)

theorem length_permutations_of {α : Type} :
    ∀ l : List α, (permutations_of l).length = l.length.factorial := by
  intro l
  induction l with
  | nil => rfl
  | cons x rest ih =>
    show ((permutations_of rest).flatMap (insert_everywhere x)).length = _
    rw [List.length_flatMap]
    have hmap : ((permutations_of rest).map (List.length ∘ insert_everywhere x)) =
        (permutations_of rest).map fun _ => rest.length + 1 := by
      refine List.map_congr_left fun p hp => ?_
      have hpl := (mem_permutations_of hp).length_eq
      simp [length_insert_everywhere, hpl]
    rw [hmap, sum_map_const, ih]
    rw [List.length_cons, Nat.factorial_succ, Nat.mul_comm]

theorem value_tuples_length (n : Nat) : (value_tuples n).length = 3 ^ n := by
  induction n with
  | zero => rfl
  | succ k ih =>
    show (DICE_VALUES.flatMap fun v => (value_tuples k).map (v :: ·)).length = _
    rw [List.length_flatMap]
    have hmap : (DICE_VALUES.map
        (List.length ∘ fun v => (value_tuples k).map (v :: ·))) =
        DICE_VALUES.map fun _ => 3 ^ k := by
      refine List.map_congr_left fun v _ => ?_
      simp [ih]
    rw [hmap, sum_map_const]
    show 3 * 3 ^ k = 3 ^ (k + 1)
    rw [Nat.pow_succ, Nat.mul_comm]

theorem enumerate_dice_sequences_length (l : List DieColor) :
    (enumerate_dice_sequences l).length = l.length.factorial * 3 ^ l.length := by
  unfold enumerate_dice_sequences
  by_cases he : l.isEmpty
  · rw [if_pos he]
    rw [List.isEmpty_iff.1 he]
    rfl
  · rw [if_neg he]
    rw [List.length_flatMap]
    have hmap : ((permutations_of l).map (List.length ∘ fun dice_order =>
        (value_tuples dice_order.length).map fun values => dice_order.zip values)) =
        (permutations_of l).map fun _ => 3 ^ l.length := by
      refine List.map_congr_left fun p hp => ?_
      have hlen : p.length = l.length := (mem_permutations_of hp).length_eq
      simp [value_tuples_length, hlen]
    rw [hmap, sum_map_const, length_permutations_of]

theorem enumerated_outcomes_length_grey (b : Board) (dice : List DieColor) :
    (enumerated_outcomes b dice true).length =
      (enumerate_dice_sequences dice).length * (6 * (dice.length + 1)) := by
  unfold enumerated_outcomes
  rw [if_pos rfl]
  rw [List.length_flatMap]
  have hmap : ((enumerate_dice_sequences dice).map (List.length ∘ fun racing_seq =>
      enumerate_grey_die_outcomes.flatMap fun grey_outcome =>
        (List.range (dice.length + 1)).map fun grey_pos =>
          simulate_sequence_with_grey b racing_seq (some grey_outcome) grey_pos)) =
      (enumerate_dice_sequences dice).map fun _ => 6 * (dice.length + 1) := by
    refine List.map_congr_left fun rs _ => ?_
    show (enumerate_grey_die_outcomes.flatMap _).length = _
    rw [List.length_flatMap]
    have : (enumerate_grey_die_outcomes.map (List.length ∘ fun grey_outcome =>
        (List.range (dice.length + 1)).map fun grey_pos =>
          simulate_sequence_with_grey b rs (some grey_outcome) grey_pos)) =
        enumerate_grey_die_outcomes.map fun _ => dice.length + 1 := by
      refine List.map_congr_left fun go _ => ?_
      simp
    rw [this, sum_map_const]
    rfl
  rw [hmap, sum_map_const]

theorem tally_outcome_total {t : Tally} {o : LegOutcome} {t2 : Tally}
    (h : tally_outcome t o = .ok t2) :
    t2.total_outcomes = t.total_outcomes + 1 := by
  unfold tally_outcome at h
  cases hb : bump_ranking t.ranking_counts 0 o.ranking with
  | error e =>
    rw [hb] at h
    cases h
  | ok rc =>
    rw [hb] at h
    have h2 := Except.ok.inj h
    rw [← h2]

theorem foldlM_tally_total :
    ∀ (l : List LegOutcome) (t0 t : Tally),
      l.foldlM tally_outcome t0 = .ok t →
      t.total_outcomes = t0.total_outcomes + l.length := by
  intro l
  induction l with
  | nil =>
    intro t0 t h
    rw [List.foldlM_nil] at h
    have h2 := Except.ok.inj h
    rw [← h2]
    rfl
  | cons o rest ih =>
    intro t0 t h
    rw [List.foldlM_cons] at h
    cases h1 : tally_outcome t0 o with
    | error e =>
      rw [h1] at h
      cases h
    | ok t1 =>
      rw [h1] at h
      have := ih t1 t h
      have h2 := tally_outcome_total h1
      rw [this, h2, List.length_cons]
      omega

/-- C6: enumeration sizes.  (1) For the two racing dice Blue and Green and
no grey die the engine enumerates exactly 2!·3² = 18 distinct sequences;
(2) in general, N undrawn racing dice give N!·3^N sequences; (3) with 5
undrawn racing dice and the grey die, the number of enumerated and
replayed (racing-sequence, grey-outcome, grey-position) outcomes is
5!·3⁵·6·6; (4) the total-outcome counter counts each enumerated outcome
exactly once — it equals the length of the replayed-outcome list even
though individual replays may short-circuit on an early game end. -/
theorem c6_enumeration_sizes :
    ((enumerate_dice_sequences [.blue, .green]).length = 18 ∧
      (enumerate_dice_sequences [.blue, .green]).Nodup) ∧
    (∀ l : List DieColor,
      (enumerate_dice_sequences l).length = l.length.factorial * 3 ^ l.length) ∧
    (∀ (b : Board) (dice : List DieColor), dice.length = 5 →
      (enumerated_outcomes b dice true).length =
        Nat.factorial 5 * 3 ^ 5 * 6 * 6) ∧
    (∀ (b : Board) (dice : List DieColor) (grey : Bool) (t : Tally),
      calculate_tallies b dice grey = .ok t →
      t.total_outcomes = (enumerated_outcomes b dice grey).length) := by
  refine ⟨by decide, enumerate_dice_sequences_length, ?_, ?_⟩
  · intro b dice h5
    rw [enumerated_outcomes_length_grey, enumerate_dice_sequences_length, h5]
    rfl
  · intro b dice grey t h
    have := foldlM_tally_total _ _ _ h
    rw [this]
    simp [init_tally]

/-- C6 (witness): the grey-mode count for a concrete board and the five
racing dice, and the counter for a concrete one-die enumeration. -/
theorem c6_witness :
    (enumerated_outcomes spread_board [.blue, .green, .yellow, .red, .purple]
      true).length = Nat.factorial 5 * 3 ^ 5 * 6 * 6 ∧
    (calculate_tallies spread_board [.blue] false).toOption.map
      (fun t => t.total_outcomes) = some 3 := by
  refine ⟨c6_enumeration_sizes.2.2.1 spread_board _ rfl, ?_⟩
  cases hcalc : calculate_tallies spread_board [.blue] false with
  | error e =>
    have hs : (calculate_tallies spread_board [.blue] false).toOption.isSome
        = true := by decide
    rw [hcalc] at hs
    cases hs
  | ok t =>
    have ht := c6_enumeration_sizes.2.2.2 spread_board [.blue] false t hcalc
    simp only [Except.toOption, Option.map_some']
    rw [ht]
    decide

/-! ## Claim C1: the engine simulates every undrawn die -/

/-- C1 (code bug): every replayed sequence consumes ALL the undrawn dice —
for a grey outcome at any enumerated position the event list has
`len(racing) + 1` rolls, so no die is left un-rolled.  On the board of the
repository's own test `TestLegStopsAfterFiveDice.test_sixth_die_not_simulated`
(Blue at 14, Green at 15, remaining dice = Blue's die and the grey die),
Blue's die is therefore rolled in every one of the 36 enumerated outcomes
and Blue finishes 1st with probability 1, where the leg-end rule (5 of 6
dice drawn) and the test demand probability 1/2. -/
theorem c1_all_undrawn_dice_simulated :
    (∀ (racing : List (DieColor × Nat)) (go : CamelColor × Nat) (gp : Nat),
      gp ≤ racing.length →
      (sequence_events racing (some go) gp).length = racing.length + 1) ∧
    ((calculate_tallies sixth_die_board [.blue] true).toOption.map
      (fun t => (t.ranking_counts .blue, t.total_outcomes)) =
      some ([36, 0, 0, 0, 0], 36)) ∧
    ((calculate_all_probabilities sixth_die_board [.blue] true).toOption.map
      (fun p => (p.ranking_probabilities .blue).getD 0 0) = some 1) := by
  have hpair : (calculate_tallies sixth_die_board [.blue] true).toOption.map
      (fun t => (t.ranking_counts .blue, t.total_outcomes)) =
      some ([36, 0, 0, 0, 0], 36) := by decide
  refine ⟨?_, hpair, ?_⟩
  · intro racing go gp hgp
    obtain ⟨cam, v⟩ := go
    unfold sequence_events
    dsimp only
    rw [List.length_insertIdx _ _ (by simpa using hgp)]
    simp
  · cases hcalc : calculate_tallies sixth_die_board [.blue] true with
    | error e =>
      rw [hcalc] at hpair
      cases hpair
    | ok t =>
      rw [hcalc] at hpair
      simp only [Except.toOption, Option.map_some', Option.some.injEq,
        Prod.mk.injEq] at hpair
      obtain ⟨hcounts, htotal⟩ := hpair
      unfold calculate_all_probabilities
      rw [hcalc]
      simp only [Except.map, Except.toOption, Option.map_some', Option.some.injEq]
      unfold probabilities_of_tally
      rw [if_neg (by simp [htotal])]
      dsimp only
      rw [hcounts, htotal]
      simp [List.getD]

/-- C1 (witness): a one-die racing sequence with a grey outcome at position
0 replays 2 rolls. -/
theorem c1_witness :
    (sequence_events [(.blue, 2)] (some (.white, 1)) 0).length = 2 :=
  c1_all_undrawn_dice_simulated.1 [(.blue, 2)] (.white, 1) 0 (by decide)

/-! ## Claim C2: ranking probabilities form a doubly stochastic table -/

theorem crazy_to_move_cases (ps : CamelPositions) (cam : CamelColor) :
    ps.get_crazy_camel_to_move cam = .white ∨
    ps.get_crazy_camel_to_move cam = .black ∨
    ps.get_crazy_camel_to_move cam = cam := by
  unfold CamelPositions.get_crazy_camel_to_move
  dsimp only
  split
  · exact Or.inl rfl
  split
  · exact Or.inr (Or.inl rfl)
  split
  · split
    · split
      · split
        · exact Or.inr (Or.inr rfl)
        · split
          · exact Or.inl rfl
          · exact Or.inr (Or.inl rfl)
      · exact Or.inr (Or.inr rfl)
    · exact Or.inr (Or.inr rfl)
  · exact Or.inr (Or.inr rfl)

/-- A tile-free board move whose clamped destination differs from the
camel's origin (for every possible origin) keeps the tile overlay empty
and preserves every camel's occurrence count. -/
theorem board_move_counts {b : Board} (htiles : b.spectator_tiles = [])
    (c : CamelColor) (v : Int)
    (hne : ∀ cur h, b.camel_positions.find_camel c = some (cur, h) →
      (max 1 ((cur : Int) + v)).toNat ≠ cur) :
    (b.move_camel c v).1.spectator_tiles = [] ∧
    ∀ x, count_camel (b.move_camel c v).1.camel_positions x =
      count_camel b.camel_positions x := by
  unfold Board.move_camel
  cases hff : b.camel_positions.find_camel c with
  | none =>
    rw [show b.camel_positions.get_camel_space c = none by
      simp [CamelPositions.get_camel_space, hff]]
    exact ⟨htiles, fun x => rfl⟩
  | some sh =>
    obtain ⟨cur, h⟩ := sh
    rw [show b.camel_positions.get_camel_space c = some cur by
      simp [CamelPositions.get_camel_space, hff]]
    dsimp only
    have hnotile : ∀ t : Int, b.get_spectator_tile t = none := by
      intro t
      simp [Board.get_spectator_tile, htiles]
    rw [hnotile]
    dsimp only
    have harith : max 1 ((cur : Int) + (max 1 ((cur : Int) + v) - cur)) =
        max 1 ((cur : Int) + v) := by omega
    have hne2 : (max 1 ((cur : Int) + (max 1 ((cur : Int) + v) - cur))).toNat
        ≠ cur := by
      rw [harith]
      exact hne cur h hff
    obtain ⟨ps2, heq, hcount⟩ := move_camel_counts hff hne2
    rw [heq]
    exact ⟨htiles, hcount⟩

/-- A tile-free forward move (distance at least 1, as any racing-die move)
keeps every crazy camel off spaces 0 and 1. -/
theorem board_move_no_crazy {b : Board} (htiles : b.spectator_tiles = [])
    (c : CamelColor) {v : Int} (hv : 1 ≤ v)
    (hcr : no_crazy_near_start b.camel_positions) :
    no_crazy_near_start (b.move_camel c v).1.camel_positions := by
  unfold Board.move_camel
  cases hff : b.camel_positions.find_camel c with
  | none =>
    rw [show b.camel_positions.get_camel_space c = none by
      simp [CamelPositions.get_camel_space, hff]]
    exact hcr
  | some sh =>
    obtain ⟨cur, h⟩ := sh
    rw [show b.camel_positions.get_camel_space c = some cur by
      simp [CamelPositions.get_camel_space, hff]]
    dsimp only
    have hnotile : ∀ t : Int, b.get_spectator_tile t = none := by
      intro t
      simp [Board.get_spectator_tile, htiles]
    rw [hnotile]
    dsimp only
    have harith : max 1 ((cur : Int) + (max 1 ((cur : Int) + v) - cur)) =
        (cur : Int) + v := by omega
    have hthe : (max 1 ((cur : Int) + (max 1 ((cur : Int) + v) - cur))).toNat =
        cur + v.toNat := by omega
    have hne2 : (max 1 ((cur : Int) + (max 1 ((cur : Int) + v) - cur))).toNat
        ≠ cur := by omega
    obtain ⟨ps2, heq, h1, h2, h3⟩ := move_camel_char hff hne2
    rw [heq]
    dsimp only
    intro x hx
    obtain ⟨hx0, hx1⟩ := hcr x hx
    rw [hthe] at h2
    constructor
    · -- space 0 is never the destination
      by_cases hc0 : cur = 0
      · subst hc0
        rw [h1]
        exact fun hmem => hx0 (List.mem_of_mem_take hmem)
      · rw [h3 0 (Ne.symm (by omega)) (by omega)]
        exact hx0
    · by_cases hc1 : cur = 1
      · subst hc1
        rw [h1]
        exact fun hmem => hx1 (List.mem_of_mem_take hmem)
      · by_cases hd1 : cur + v.toNat = 1
        · -- destination is space 1: only possible from origin 0
          rw [show (1 : Nat) = cur + v.toNat by omega, h2]
          simp only [Bool.false_eq_true, if_false]
          intro hmem
          rcases List.mem_append.1 hmem with hmem | hmem
          · exact (by rw [show cur + v.toNat = 1 by omega] at hmem; exact hx1 hmem)
          · have hcur0 : cur = 0 := by omega
            subst hcur0
            exact hx0 (List.mem_of_mem_drop hmem)
        · rw [h3 1 (by omega) (by omega)]
          exact hx1

/-- One replayed roll on a tile-free board preserves every camel's
occurrence count, keeps the board tile-free, and — for racing rolls —
keeps crazy camels away from spaces 0 and 1 (a grey roll needs that
pre-condition to rule out the clamp-onto-own-space duplication). -/
theorem simulate_roll_inv {b : Board} (htiles : b.spectator_tiles = [])
    (r : Roll) (hr : roll_ok r)
    (hcr : is_grey_roll r = true → no_crazy_near_start b.camel_positions) :
    (simulate_roll b r).1.spectator_tiles = [] ∧
    (∀ x, count_camel (simulate_roll b r).1.camel_positions x =
      count_camel b.camel_positions x) ∧
    (is_grey_roll r = false → no_crazy_near_start b.camel_positions →
      no_crazy_near_start (simulate_roll b r).1.camel_positions) := by
  cases r with
  | racing d v =>
    have hv : 1 ≤ v := hr
    unfold simulate_roll
    dsimp only
    cases hd : die_to_camel d with
    | none => exact ⟨htiles, fun x => rfl, fun _ hc => hc⟩
    | some camel =>
      dsimp only
      have hne : ∀ cur h, b.camel_positions.find_camel camel = some (cur, h) →
          (max 1 ((cur : Int) + (v : Int))).toNat ≠ cur := by
        intro cur h _
        omega
      obtain ⟨ht2, hcnt⟩ := board_move_counts htiles camel (v : Int) hne
      exact ⟨ht2, hcnt, fun _ hc =>
        board_move_no_crazy htiles camel (by exact_mod_cast hv) hc⟩
  | grey cam v =>
    obtain ⟨hv, hcam⟩ := hr
    have hcrb : no_crazy_near_start b.camel_positions := hcr rfl
    unfold simulate_roll
    dsimp only
    set mover := b.camel_positions.get_crazy_camel_to_move cam with hmover
    have hmcrazy : mover.is_crazy_camel = true := by
      rcases crazy_to_move_cases b.camel_positions cam with hm | hm | hm <;>
        rw [hmover, hm]
      · rfl
      · rfl
      · rcases hcam with rfl | rfl <;> rfl
    have hne : ∀ cur h, b.camel_positions.find_camel mover = some (cur, h) →
        (max 1 ((cur : Int) + (-(v : Int)))).toNat ≠ cur := by
      intro cur h hff
      have hmem := mem_stack_of_find_camel hff
      obtain ⟨h0, h1⟩ := hcrb mover hmcrazy
      have hcur2 : 2 ≤ cur := by
        rcases Nat.lt_or_ge cur 2 with hlt | hge
        · interval_cases cur
          · exact absurd hmem h0
          · exact absurd hmem h1
        · exact hge
      omega
    obtain ⟨ht2, hcnt⟩ := board_move_counts htiles mover (-(v : Int)) hne
    refine ⟨ht2, hcnt, ?_⟩
    intro hfalse
    cases hfalse

/-- Replaying a whole (well-formed, at-most-one-grey) roll sequence on a
tile-free board whose crazy camels start off spaces 0–1 preserves every
camel's occurrence count, even when the replay stops early on game over. -/
theorem run_rolls_counts :
    ∀ (rolls : List Roll) (b : Board),
      b.spectator_tiles = [] →
      (∀ r ∈ rolls, roll_ok r) →
      rolls.countP is_grey_roll ≤ 1 →
      ((∃ r ∈ rolls, is_grey_roll r = true) →
        no_crazy_near_start b.camel_positions) →
      ∀ x, count_camel (run_rolls b rolls).1.camel_positions x =
        count_camel b.camel_positions x := by
  intro rolls
  induction rolls with
  | nil => intro b _ _ _ _ x; rfl
  | cons r rest ih =>
    intro b htiles hok hone hcr x
    obtain ⟨ht2, hcnt, hncr⟩ := simulate_roll_inv htiles r (hok r (by simp))
      (fun hg => hcr ⟨r, by simp, hg⟩)
    unfold run_rolls
    rcases hsim : simulate_roll b r with ⟨b2, landed⟩
    rw [hsim] at ht2 hcnt hncr
    dsimp only at ht2 hcnt hncr ⊢
    by_cases hgo : b2.is_game_over
    · rw [if_pos hgo]
      exact hcnt x
    · rw [if_neg hgo]
      rcases hrun : run_rolls b2 rest with ⟨b3, more, fin⟩
      dsimp only
      have hrest : ∀ y, count_camel (run_rolls b2 rest).1.camel_positions y =
          count_camel b2.camel_positions y := by
        refine ih b2 ht2 (fun r2 h2 => hok r2 (by simp [h2])) ?_ ?_
        · have := List.countP_cons is_grey_roll r rest
          omega
        · rintro ⟨r2, hr2, hg2⟩
          cases hgr : is_grey_roll r with
          | true =>
            exfalso
            have hcc := List.countP_cons is_grey_roll r rest
            rw [hgr] at hcc
            simp at hcc
            have h1le : 0 < rest.countP is_grey_roll :=
              List.countP_pos_iff.2 ⟨r2, hr2, hg2⟩
            omega
          | false => exact hncr hgr (hcr ⟨r2, by simp [hr2], hg2⟩)
      have := hrest x
      rw [hrun] at this
      dsimp only at this
      rw [this, hcnt x]

theorem count_flatMap {α β : Type} [DecidableEq β] (f : α → List β) (b : β) :
    ∀ l : List α, (l.flatMap f).count b = (l.map fun a => (f a).count b).sum := by
  intro l
  induction l with
  | nil => rfl
  | cons a t ih => simp [List.flatMap_cons, List.count_append, ih]

theorem count_stack_entries (c : CamelColor) (hc : c.is_racing_camel = true)
    (a : Int) :
    ∀ (st : CamelStack) (k : Nat),
      (((List.enumFrom k st).filterMap fun hc2 =>
        if hc2.2.is_racing_camel then some (a, -(hc2.1 : Int), hc2.2)
        else none).map (·.2.2)).count c = st.count c := by
  intro st
  induction st with
  | nil => intro k; rfl
  | cons x rest ih =>
    intro k
    rw [List.enumFrom_cons]
    by_cases hx : x.is_racing_camel
    · simp [List.filterMap_cons, hx, List.count_cons, ih (k + 1)]
    · have hxc : ¬ (x = c) := fun he => by
        subst he
        rw [hc] at hx
        exact hx rfl
      simp [List.filterMap_cons, hx, List.count_cons, ih (k + 1), hxc]

theorem sum_map_getD_range (g : CamelStack → Nat) :
    ∀ L : List CamelStack,
      ((List.range L.length).map fun s => g (L.getD s [])).sum =
        (L.map g).sum := by
  intro L
  induction L with
  | nil => rfl
  | cons st rest ih =>
    rw [List.length_cons, List.range_succ_eq_map]
    simp only [List.map_cons, List.map_map, List.sum_cons]
    have hmap : ((List.range rest.length).map
        ((fun s => g ((st :: rest).getD s [])) ∘ Nat.succ)).sum =
        ((List.range rest.length).map fun s => g (rest.getD s [])).sum := by
      refine congrArg List.sum (List.map_congr_left fun s _ => ?_)
      rfl
    rw [hmap, ih]
    rfl

theorem count_ranking_entries {c : CamelColor} (hc : c.is_racing_camel = true)
    (L : List CamelStack) :
    ((CamelPositions.ranking_entries L).map (·.2.2)).count c =
      (L.map fun st => st.count c).sum := by
  unfold CamelPositions.ranking_entries
  rw [List.map_flatMap, count_flatMap]
  have hper : ((List.range L.length).reverse.map fun s =>
      ((((L.getD s []).enum.filterMap fun hc2 =>
        if hc2.2.is_racing_camel then some (-(s : Int), -(hc2.1 : Int), hc2.2)
        else none).map (·.2.2)).count c)) =
      (List.range L.length).reverse.map fun s => (L.getD s []).count c := by
    refine List.map_congr_left fun s _ => ?_
    exact count_stack_entries c hc (-(s : Int)) (L.getD s []) 0
  rw [hper, List.map_reverse, List.sum_reverse]
  exact sum_map_getD_range _ L

theorem ranking_entries_racing (L : List CamelStack) :
    ∀ e ∈ CamelPositions.ranking_entries L, e.2.2.is_racing_camel = true := by
  intro e he
  unfold CamelPositions.ranking_entries at he
  rw [List.mem_flatMap] at he
  obtain ⟨s, _, he2⟩ := he
  rw [List.mem_filterMap] at he2
  obtain ⟨a, _, ha⟩ := he2
  by_cases hr : a.2.is_racing_camel
  · rw [if_pos hr] at ha
    cases ha
    exact hr
  · rw [if_neg hr] at ha
    cases ha

/-- On a board where every racing camel occurs exactly once, `get_ranking`
is a permutation of the five racing camels. -/
theorem ranking_perm_racing {ps : CamelPositions}
    (h : racing_placed_once ps) : ps.get_ranking.Perm racing_camels := by
  unfold CamelPositions.get_ranking
  refine ((perm_sort_by CamelPositions.entry_le
    (CamelPositions.ranking_entries ps.stacks')).map (·.2.2)).trans ?_
  rw [List.perm_iff_count]
  intro x
  by_cases hx : x.is_racing_camel
  · rw [show (List.count x ((CamelPositions.ranking_entries ps.stacks').map
        (·.2.2))) = ((ps.stacks'.map fun st => st.count x).sum) from
      count_ranking_entries hx ps.stacks']
    have hcnt := h x hx
    unfold count_camel at hcnt
    rw [hcnt]
    cases x <;> first
      | decide
      | exact absurd hx (by decide)
  · have h0 : List.count x ((CamelPositions.ranking_entries ps.stacks').map
        (·.2.2)) = 0 := by
      rw [List.count_eq_zero]
      intro hmem
      rw [List.mem_map] at hmem
      obtain ⟨e, he, hex⟩ := hmem
      rw [← hex] at hx
      exact hx (ranking_entries_racing _ e he)
    rw [h0]
    cases x <;> first
      | decide
      | exact absurd (by decide : CamelColor.is_racing_camel _ = true) hx

theorem sum_map_pointwise_update {α : Type} [DecidableEq α] (f : α → Nat)
    (x : α) (a : Nat) :
    ∀ l : List α,
      (l.map fun y => if y = x then a else f y).sum + f x * l.count x =
        (l.map f).sum + a * l.count x := by
  intro l
  induction l with
  | nil => simp
  | cons b t ih =>
    by_cases hb : b = x
    · subst hb
      simp only [List.map_cons, List.sum_cons, eq_self_iff_true, if_true,
        List.count_cons_self, Nat.mul_succ]
      omega
    · simp only [List.map_cons, List.sum_cons, if_neg hb,
        List.count_cons_of_ne (fun h => hb h.symm)]
      omega

theorem racing_count_one {x : CamelColor} (hx : x.is_racing_camel = true) :
    racing_camels.count x = 1 := by
  cases x <;> first
    | decide
    | exact absurd hx (by decide)

theorem count_range_five {pos : Nat} (h : pos < 5) :
    (List.range 5).count pos = 1 :=
  List.count_eq_one_of_mem (List.nodup_range 5) (List.mem_range.2 h)

/-- Effect of the ranking-count bump loop: it succeeds on any all-racing
ranking fitting in the 5 slots, adds 1 to each column it touches, and adds
each camel's multiplicity to that camel's row. -/
theorem bump_ranking_spec :
    ∀ (ranking : List CamelColor) (counts : CamelColor → List Nat) (pos : Nat),
      (∀ c ∈ ranking, c.is_racing_camel = true) →
      (∀ c, (counts c).length = 5) →
      pos + ranking.length ≤ 5 →
      ∃ counts2, bump_ranking counts pos ranking = .ok counts2 ∧
        (∀ c, (counts2 c).length = 5) ∧
        (∀ p, col_sum counts2 p = col_sum counts p +
          (if pos ≤ p ∧ p < pos + ranking.length then 1 else 0)) ∧
        (∀ c, row_sum counts2 c = row_sum counts c + ranking.count c) := by
  intro ranking
  induction ranking with
  | nil =>
    intro counts pos _ hlen _
    refine ⟨counts, rfl, hlen, fun p => ?_, fun c => by simp⟩
    simp only [List.length_nil]
    rw [if_neg (by omega)]
    omega
  | cons x rest ih =>
    intro counts pos hracing hlen hle
    have hx : x.is_racing_camel = true := hracing x (by simp)
    have hpos5 : pos < 5 := by
      rw [List.length_cons] at hle
      omega
    unfold bump_ranking
    rw [if_pos hx, if_pos (show pos < (counts x).length by rw [hlen x]; exact hpos5)]
    set v := (counts x).getD pos 0 with hv
    set counts1 := bump_camel counts x ((counts x).set pos (v + 1)) with hc1
    have hlen1 : ∀ c, (counts1 c).length = 5 := by
      intro c
      rw [hc1]
      unfold bump_camel
      by_cases hcx : c = x
      · rw [if_pos hcx, List.length_set, hlen]
      · rw [if_neg hcx, hlen]
    have hcol1 : ∀ p, col_sum counts1 p =
        col_sum counts p + (if p = pos then 1 else 0) := by
      intro p
      unfold col_sum
      have hfun : (racing_camels.map fun c => (counts1 c).getD p 0) =
          racing_camels.map fun c =>
            if c = x then ((counts x).set pos (v + 1)).getD p 0
            else (counts c).getD p 0 := by
        refine List.map_congr_left fun c _ => ?_
        rw [hc1]
        unfold bump_camel
        by_cases hcx : c = x
        · rw [if_pos hcx, if_pos hcx]
        · rw [if_neg hcx, if_neg hcx]
      rw [hfun]
      have hupd := sum_map_pointwise_update (fun c => (counts c).getD p 0) x
        (((counts x).set pos (v + 1)).getD p 0) racing_camels
      rw [racing_count_one hx] at hupd
      by_cases hp : p = pos
      · subst hp
        have hA : ((counts x).set p (v + 1)).getD p 0 = v + 1 :=
          getD_set_self (by rw [hlen x]; exact hpos5)
        rw [hA] at hupd ⊢
        rw [if_pos rfl]
        omega
      · have hA : ((counts x).set pos (v + 1)).getD p 0 = (counts x).getD p 0 :=
          getD_set_ne (fun h => hp h.symm)
        rw [hA] at hupd ⊢
        rw [if_neg hp]
        omega
    have hrow1 : ∀ c, row_sum counts1 c =
        row_sum counts c + (if c = x then 1 else 0) := by
      intro c
      by_cases hcx : c = x
      · subst hcx
        unfold row_sum
        have hfun : ((List.range 5).map fun p => (counts1 c).getD p 0) =
            (List.range 5).map fun p =>
              if p = pos then v + 1 else (counts c).getD p 0 := by
          refine List.map_congr_left fun p _ => ?_
          rw [hc1]
          unfold bump_camel
          rw [if_pos rfl]
          by_cases hp : p = pos
          · subst hp
            rw [getD_set_self (by rw [hlen c]; exact hpos5), if_pos rfl]
          · rw [getD_set_ne (fun h => hp h.symm), if_neg hp]
        rw [hfun]
        have hupd := sum_map_pointwise_update (fun p => (counts c).getD p 0) pos
          (v + 1) (List.range 5)
        rw [count_range_five hpos5] at hupd
        rw [if_pos rfl]
        have hvv : (counts c).getD pos 0 = v := rfl
        omega
      · rw [if_neg hcx]
        unfold row_sum
        have hfun : ((List.range 5).map fun p => (counts1 c).getD p 0) =
            (List.range 5).map fun p => (counts c).getD p 0 := by
          refine List.map_congr_left fun p _ => ?_
          rw [hc1]
          unfold bump_camel
          rw [if_neg hcx]
        rw [hfun]
        omega
    obtain ⟨counts2, heq2, hlen2, hcol2, hrow2⟩ := ih counts1 (pos + 1)
      (fun c hc => hracing c (by simp [hc])) hlen1
      (by rw [List.length_cons] at hle; omega)
    refine ⟨counts2, heq2, hlen2, fun p => ?_, fun c => ?_⟩
    · rw [hcol2 p, hcol1 p, List.length_cons]
      by_cases hp : p = pos
      · subst hp
        rw [if_pos rfl, if_neg (by omega), if_pos (by omega)]
      · rw [if_neg hp]
        by_cases hin : pos + 1 ≤ p ∧ p < pos + 1 + rest.length
        · rw [if_pos hin, if_pos (by omega)]
        · rw [if_neg hin, if_neg (by omega)]
    · rw [hrow2 c, hrow1 c, List.count_cons]
      by_cases hcx : c = x
      · subst hcx
        simp
        omega
      · rw [if_neg hcx]
        have : (x == c) = false := by
          rw [beq_eq_false_iff_ne]
          exact fun h => hcx h.symm
        rw [this]
        simp

theorem mem_value_tuples :
    ∀ {n : Nat} {values : List Nat}, values ∈ value_tuples n →
      values.length = n ∧ ∀ v ∈ values, v ∈ DICE_VALUES := by
  intro n
  induction n with
  | zero =>
    intro values h
    simp only [value_tuples, List.mem_singleton] at h
    subst h
    exact ⟨rfl, by simp⟩
  | succ m ih =>
    intro values h
    unfold value_tuples at h
    rw [List.mem_flatMap] at h
    obtain ⟨v, hv, hmem⟩ := h
    rw [List.mem_map] at hmem
    obtain ⟨rest, hrest, hcons⟩ := hmem
    subst hcons
    obtain ⟨hlen, hall⟩ := ih hrest
    refine ⟨by simp [hlen], ?_⟩
    intro w hw
    rcases List.mem_cons.1 hw with rfl | hw2
    · exact hv
    · exact hall w hw2

theorem mem_enumerate_dice_sequences {dice : List DieColor}
    {seq : List (DieColor × Nat)} (h : seq ∈ enumerate_dice_sequences dice) :
    seq.length = dice.length ∧ ∀ dv ∈ seq, dv.2 ∈ DICE_VALUES := by
  unfold enumerate_dice_sequences at h
  by_cases he : dice.isEmpty
  · rw [if_pos he] at h
    rw [List.mem_singleton] at h
    subst h
    rw [List.isEmpty_iff.1 he]
    exact ⟨rfl, by simp⟩
  · rw [if_neg he] at h
    rw [List.mem_flatMap] at h
    obtain ⟨order, horder, h2⟩ := h
    rw [List.mem_map] at h2
    obtain ⟨values, hvalues, hzip⟩ := h2
    subst hzip
    have holen : order.length = dice.length :=
      (mem_permutations_of horder).length_eq
    obtain ⟨hvlen, hvall⟩ := mem_value_tuples hvalues
    constructor
    · rw [List.length_zip, hvlen, holen]
      exact Nat.min_self _
    · intro dv hdv
      rcases dv with ⟨d, v⟩
      exact hvall v (List.of_mem_zip hdv).2

theorem countP_grey_racing_map (seq : List (DieColor × Nat)) :
    ((seq.map fun dv => Roll.racing dv.1 dv.2).countP is_grey_roll) = 0 := by
  induction seq with
  | nil => rfl
  | cons dv rest ih => simp [List.countP_cons, ih, is_grey_roll]

theorem racing_rolls_ok {seq : List (DieColor × Nat)}
    (hall : ∀ dv ∈ seq, dv.2 ∈ DICE_VALUES) :
    ∀ r ∈ seq.map fun dv => Roll.racing dv.1 dv.2, roll_ok r := by
  intro r hr
  rw [List.mem_map] at hr
  obtain ⟨dv, hdv, hre⟩ := hr
  have hv := hall dv hdv
  simp only [DICE_VALUES, List.mem_cons, List.not_mem_nil, or_false] at hv
  rw [← hre]
  show 1 ≤ dv.2
  rcases hv with h | h | h <;> omega

theorem grey_outcome_ok {go : CamelColor × Nat}
    (h : go ∈ enumerate_grey_die_outcomes) : roll_ok (Roll.grey go.1 go.2) := by
  simp only [enumerate_grey_die_outcomes, List.mem_cons, List.not_mem_nil,
    or_false] at h
  rcases h with rfl | rfl | rfl | rfl | rfl | rfl
  · exact ⟨by omega, Or.inl rfl⟩
  · exact ⟨by omega, Or.inl rfl⟩
  · exact ⟨by omega, Or.inl rfl⟩
  · exact ⟨by omega, Or.inr rfl⟩
  · exact ⟨by omega, Or.inr rfl⟩
  · exact ⟨by omega, Or.inr rfl⟩

/-- With the grey die, the event list is a permutation of the grey roll
consed onto the racing rolls (the grey position is always in range). -/
theorem sequence_events_perm (seq : List (DieColor × Nat))
    (cam : CamelColor) (v : Nat) {gp : Nat} (hgp : gp ≤ seq.length) :
    (sequence_events seq (some (cam, v)) gp).Perm
      (Roll.grey cam v :: seq.map fun dv => Roll.racing dv.1 dv.2) := by
  unfold sequence_events
  exact List.perm_insertIdx _ _ (by rw [List.length_map]; exact hgp)

/-- Replaying any enumerated event list on a tile-free board with all five
racing camels placed once and no crazy camel on spaces 0-1 produces a
ranking that is a permutation of the five racing camels. -/
theorem replay_ranking_perm {b : Board} (htiles : b.spectator_tiles = [])
    (hplaced : racing_placed_once b.camel_positions)
    (hcrazy : no_crazy_near_start b.camel_positions)
    (seq : List (DieColor × Nat)) (go : Option (CamelColor × Nat)) (gp : Nat)
    (hok : ∀ r ∈ sequence_events seq go gp, roll_ok r)
    (hone : (sequence_events seq go gp).countP is_grey_roll ≤ 1) :
    (simulate_sequence_with_grey b seq go gp).ranking.Perm racing_camels := by
  unfold simulate_sequence_with_grey
  rcases hrun : run_rolls b (sequence_events seq go gp) with ⟨b2, landed, fin⟩
  dsimp only
  have hcnt := run_rolls_counts (sequence_events seq go gp) b htiles hok hone
    (fun _ => hcrazy)
  rw [hrun] at hcnt
  dsimp only at hcnt
  show b2.camel_positions.get_ranking.Perm racing_camels
  refine ranking_perm_racing ?_
  intro x hx
  rw [hcnt x]
  exact hplaced x hx

/-- Every outcome enumerated by the probability engine (on a tile-free,
well-placed board) carries a ranking that is a permutation of the five
racing camels. -/
theorem outcome_ranking_perm {b : Board} (htiles : b.spectator_tiles = [])
    (hplaced : racing_placed_once b.camel_positions)
    (hcrazy : no_crazy_near_start b.camel_positions)
    (dice : List DieColor) (g : Bool) :
    ∀ o ∈ enumerated_outcomes b dice g, o.ranking.Perm racing_camels := by
  intro o ho
  unfold enumerated_outcomes at ho
  cases g with
  | false =>
    rw [if_neg (by simp)] at ho
    rw [List.mem_map] at ho
    obtain ⟨seq, hseq, hre⟩ := ho
    obtain ⟨hslen, hsval⟩ := mem_enumerate_dice_sequences hseq
    rw [← hre]
    refine replay_ranking_perm htiles hplaced hcrazy seq none 0 ?_ ?_
    · exact racing_rolls_ok hsval
    · show ((seq.map fun dv => Roll.racing dv.1 dv.2).countP is_grey_roll) ≤ 1
      rw [countP_grey_racing_map]
      omega
  | true =>
    rw [if_pos rfl] at ho
    rw [List.mem_flatMap] at ho
    obtain ⟨seq, hseq, ho2⟩ := ho
    rw [List.mem_flatMap] at ho2
    obtain ⟨go, hgo, ho3⟩ := ho2
    rw [List.mem_map] at ho3
    obtain ⟨gp, hgp, hre⟩ := ho3
    obtain ⟨hslen, hsval⟩ := mem_enumerate_dice_sequences hseq
    have hgp2 : gp ≤ seq.length := by
      rw [List.mem_range] at hgp
      omega
    rcases go with ⟨cam, v⟩
    have hperm := sequence_events_perm seq cam v hgp2
    rw [← hre]
    refine replay_ranking_perm htiles hplaced hcrazy seq (some (cam, v)) gp ?_ ?_
    · intro r hr
      rcases List.mem_cons.1 (hperm.mem_iff.1 hr) with rfl | hr2
      · exact grey_outcome_ok hgo
      · exact racing_rolls_ok hsval r hr2
    · rw [hperm.countP_eq]
      rw [List.countP_cons]
      rw [countP_grey_racing_map]
      simp [is_grey_roll]

theorem mem_racing_is_racing : ∀ c ∈ racing_camels, c.is_racing_camel = true := by
  decide

/-- One outcome-loop iteration on a permutation-of-the-racers ranking:
it succeeds, and every column and every racing row of the ranking counts
grows by exactly 1. -/
theorem tally_outcome_spec {t : Tally} {o : LegOutcome}
    (hperm : o.ranking.Perm racing_camels)
    (hlen : ∀ c, (t.ranking_counts c).length = 5) :
    ∃ t2, tally_outcome t o = .ok t2 ∧
      (∀ c, (t2.ranking_counts c).length = 5) ∧
      t2.total_outcomes = t.total_outcomes + 1 ∧
      (∀ p, p < 5 → col_sum t2.ranking_counts p =
        col_sum t.ranking_counts p + 1) ∧
      (∀ c, c.is_racing_camel = true →
        row_sum t2.ranking_counts c = row_sum t.ranking_counts c + 1) := by
  have h5 : racing_camels.length = 5 := rfl
  obtain ⟨rc, hbump, hlen2, hcol, hrow⟩ := bump_ranking_spec o.ranking
    t.ranking_counts 0
    (fun c hc => mem_racing_is_racing c (hperm.subset hc))
    hlen
    (by rw [hperm.length_eq, h5])
  cases htal : tally_outcome t o with
  | error e =>
    exfalso
    unfold tally_outcome at htal
    rw [hbump] at htal
    cases htal
  | ok t2 =>
    have htal2 := htal
    unfold tally_outcome at htal2
    rw [hbump] at htal2
    have hinj := Except.ok.inj htal2
    have hrc : t2.ranking_counts = rc := by rw [← hinj]
    have htot : t2.total_outcomes = t.total_outcomes + 1 := by rw [← hinj]
    refine ⟨t2, rfl, ?_, htot, ?_, ?_⟩
    · rw [hrc]
      exact hlen2
    · intro p hp
      rw [hrc, hcol p, hperm.length_eq, h5, if_pos (by omega)]
    · intro c hc
      rw [hrc, hrow c, hperm.count_eq c, racing_count_one hc]

/-- The whole outcome loop of `calculate_all_probabilities`: on a list of
outcomes whose rankings are all permutations of the five racing camels, the
fold succeeds and every column and racing row of the ranking counts equals
the number of outcomes (plus whatever was already tallied). -/
theorem foldlM_tally_spec :
    ∀ (outs : List LegOutcome) (t : Tally),
      (∀ o ∈ outs, o.ranking.Perm racing_camels) →
      (∀ c, (t.ranking_counts c).length = 5) →
      ∃ t2, outs.foldlM tally_outcome t = .ok t2 ∧
        (∀ c, (t2.ranking_counts c).length = 5) ∧
        t2.total_outcomes = t.total_outcomes + outs.length ∧
        (∀ p, p < 5 → col_sum t2.ranking_counts p =
          col_sum t.ranking_counts p + outs.length) ∧
        (∀ c, c.is_racing_camel = true →
          row_sum t2.ranking_counts c = row_sum t.ranking_counts c + outs.length) := by
  intro outs
  induction outs with
  | nil =>
    intro t _ hlen
    exact ⟨t, rfl, hlen, rfl, fun p _ => rfl, fun c _ => rfl⟩
  | cons o rest ih =>
    intro t hperm hlen
    obtain ⟨t1, hstep, hlen1, htot1, hcol1, hrow1⟩ :=
      tally_outcome_spec (hperm o (by simp)) hlen
    obtain ⟨t2, hfold, hlen2, htot2, hcol2, hrow2⟩ :=
      ih t1 (fun o2 h2 => hperm o2 (by simp [h2])) hlen1
    refine ⟨t2, ?_, hlen2, ?_, ?_, ?_⟩
    · rw [List.foldlM_cons, hstep]
      exact hfold
    · rw [htot2, htot1, List.length_cons]
      omega
    · intro p hp
      rw [hcol2 p hp, hcol1 p hp, List.length_cons]
      omega
    · intro c hc
      rw [hrow2 c hc, hrow1 c hc, List.length_cons]
      omega

theorem getD_replicate_zero : ∀ n p : Nat,
    (List.replicate n (0 : Nat)).getD p 0 = 0 := by
  intro n
  induction n with
  | zero => intro p; rfl
  | succ m ih =>
    intro p
    cases p with
    | zero => rfl
    | succ q => exact ih q

theorem col_sum_init (p : Nat) : col_sum init_tally.ranking_counts p = 0 := by
  unfold col_sum
  have h : (racing_camels.map fun c => (init_tally.ranking_counts c).getD p 0) =
      racing_camels.map fun _ => (0 : Nat) :=
    List.map_congr_left fun c _ => getD_replicate_zero 5 p
  rw [h]
  rfl

theorem row_sum_init (c : CamelColor) : row_sum init_tally.ranking_counts c = 0 := by
  unfold row_sum
  have h : ((List.range 5).map fun p => (init_tally.ranking_counts c).getD p 0) =
      (List.range 5).map fun _ => (0 : Nat) :=
    List.map_congr_left fun p _ => getD_replicate_zero 5 p
  rw [h]
  rfl

theorem getD_map_div (l : List Nat) (total : ℚ) {p : Nat} (hp : p < l.length) :
    (l.map fun k => ((k : Nat) : ℚ) / total).getD p 0 =
      ((l.getD p 0 : Nat) : ℚ) / total := by
  rw [List.getD_eq_getElem?_getD, List.getD_eq_getElem?_getD, List.getElem?_map,
    List.getElem?_eq_getElem hp]
  rfl

theorem enumerated_outcomes_pos (b : Board) (dice : List DieColor) (g : Bool) :
    0 < (enumerated_outcomes b dice g).length := by
  have hseqpos : 0 < (enumerate_dice_sequences dice).length := by
    rw [enumerate_dice_sequences_length]
    exact Nat.mul_pos (Nat.factorial_pos _) (pow_pos (by norm_num) _)
  cases g with
  | false =>
    have h : (enumerated_outcomes b dice false).length =
        (enumerate_dice_sequences dice).length := by
      unfold enumerated_outcomes
      rw [if_neg (by simp), List.length_map]
    rw [h]
    exact hseqpos
  | true =>
    rw [enumerated_outcomes_length_grey]
    exact Nat.mul_pos hseqpos (by omega)

/-- C2 (amended: the board carries no spectator tiles and no crazy camel sits
on spaces 0-1, ruling out the clamp-onto-own-space duplication that otherwise
crashes the counting loop): on a board where all five racing camels are
placed (once each) and for a non-empty undrawn racing-dice set, with or
without the grey die, the engine returns a ranking distribution in which,
for each of the five rank positions, the probabilities across the five
racing camels sum to exactly 1, and for each racing camel its probabilities
across the five rank positions sum to exactly 1. -/
theorem c2_ranking_probabilities_sum_to_one {b : Board} {dice : List DieColor}
    {g : Bool}
    (hdice : dice ≠ [])
    (htiles : b.spectator_tiles = [])
    (hplaced : racing_placed_once b.camel_positions)
    (hcrazy : no_crazy_near_start b.camel_positions) :
    ∃ probs, calculate_all_probabilities b dice g = .ok probs ∧
      (∀ p, p < 5 → ranking_position_sum probs p = 1) ∧
      (∀ c, c.is_racing_camel = true → ranking_camel_sum probs c = 1) := by
  obtain ⟨t2, hfold, hlen2, htot, hcol, hrow⟩ := foldlM_tally_spec
    (enumerated_outcomes b dice g) init_tally
    (outcome_ranking_perm htiles hplaced hcrazy dice g) (fun c => rfl)
  have hNpos := enumerated_outcomes_pos b dice g
  have hN : t2.total_outcomes = (enumerated_outcomes b dice g).length := by
    rw [htot]
    simp [init_tally]
  have hA : ¬ t2.total_outcomes = 0 := by omega
  have hprob : (probabilities_of_tally t2).ranking_probabilities =
      fun c => (t2.ranking_counts c).map
        fun k => ((k : Nat) : ℚ) / (t2.total_outcomes : ℚ) := by
    unfold probabilities_of_tally
    rw [if_neg hA]
  have hTne : ((t2.total_outcomes : Nat) : ℚ) ≠ 0 := Nat.cast_ne_zero.2 hA
  refine ⟨probabilities_of_tally t2, ?_, ?_, ?_⟩
  · unfold calculate_all_probabilities calculate_tallies
    rw [hfold]
    rfl
  · intro p hp
    unfold ranking_position_sum
    rw [hprob]
    have hfun : (racing_camels.map fun c =>
        ((t2.ranking_counts c).map
          fun k => ((k : Nat) : ℚ) / (t2.total_outcomes : ℚ)).getD p 0) =
        racing_camels.map fun c =>
          (((t2.ranking_counts c).getD p 0 : Nat) : ℚ) / (t2.total_outcomes : ℚ) := by
      refine List.map_congr_left fun c _ => ?_
      exact getD_map_div _ _ (by rw [hlen2 c]; exact hp)
    rw [hfun]
    simp only [div_eq_mul_inv]
    rw [List.sum_map_mul_right]
    have hcast : (racing_camels.map fun c =>
        (((t2.ranking_counts c).getD p 0 : Nat) : ℚ)).sum =
        ((col_sum t2.ranking_counts p : Nat) : ℚ) := by
      unfold col_sum
      rw [Nat.cast_list_sum, List.map_map]
      rfl
    rw [hcast, hcol p hp, col_sum_init, Nat.zero_add, ← hN, ← div_eq_mul_inv]
    exact div_self hTne
  · intro c hc
    unfold ranking_camel_sum
    rw [hprob]
    have hfun : ((List.range 5).map fun pos =>
        ((t2.ranking_counts c).map
          fun k => ((k : Nat) : ℚ) / (t2.total_outcomes : ℚ)).getD pos 0) =
        (List.range 5).map fun pos =>
          (((t2.ranking_counts c).getD pos 0 : Nat) : ℚ) / (t2.total_outcomes : ℚ) := by
      refine List.map_congr_left fun pos hpos => ?_
      exact getD_map_div _ _ (by rw [hlen2 c]; exact List.mem_range.1 hpos)
    rw [hfun]
    simp only [div_eq_mul_inv]
    rw [List.sum_map_mul_right]
    have hcast : ((List.range 5).map fun pos =>
        (((t2.ranking_counts c).getD pos 0 : Nat) : ℚ)).sum =
        ((row_sum t2.ranking_counts c : Nat) : ℚ) := by
      unfold row_sum
      rw [Nat.cast_list_sum, List.map_map]
      rfl
    rw [hcast, hrow c hc, row_sum_init, Nat.zero_add, ← hN, ← div_eq_mul_inv]
    exact div_self hTne

theorem boo_board_placed : racing_placed_once boo_net_zero_board.camel_positions := by
  unfold racing_placed_once
  decide

theorem spread_board_placed : racing_placed_once spread_board.camel_positions := by
  unfold racing_placed_once
  decide

theorem spread_board_no_crazy :
    no_crazy_near_start spread_board.camel_positions := by
  unfold no_crazy_near_start
  decide

/-- C2 (counterexample to the unamended claim): on `boo_net_zero_board`
all five racing camels are placed (once each) and the undrawn-dice set
`[blue]` is non-empty, yet the engine returns no distribution at all: the
net-zero move onto the booing tile duplicates Blue, the replayed ranking
has six racing entries, and the counting loop aborts with an IndexError. -/
theorem c2_counterexample_boo_tile_crash :
    racing_placed_once boo_net_zero_board.camel_positions ∧
    [DieColor.blue] ≠ [] ∧
    (calculate_all_probabilities boo_net_zero_board
      [DieColor.blue] false).toOption.isNone = true := by
  refine ⟨boo_board_placed, by decide, by decide⟩

/-- C2 (witness): the tile-free `spread_board` with only Blue's die undrawn
satisfies every hypothesis of the amended claim, and the theorem yields the
exact column and row sums of 1. -/
theorem c2_witness :
    ([DieColor.blue] ≠ [] ∧ spread_board.spectator_tiles = [] ∧
      racing_placed_once spread_board.camel_positions ∧
      no_crazy_near_start spread_board.camel_positions) ∧
    ∃ probs, calculate_all_probabilities spread_board [DieColor.blue] false = .ok probs ∧
      (∀ p, p < 5 → ranking_position_sum probs p = 1) ∧
      (∀ c, c.is_racing_camel = true → ranking_camel_sum probs c = 1) :=
  ⟨⟨by decide, rfl, spread_board_placed, spread_board_no_crazy⟩,
   c2_ranking_probabilities_sum_to_one (by decide) rfl
     spread_board_placed spread_board_no_crazy⟩

end CamelUp
